import Mathlib

set_option maxHeartbeats 1000000

/-! Shallow embedding of `src/bit_set.rs` (crate `unicycle`): a hierarchical,
dynamically growing bit set with a draining iterator.

Modelling conventions:

* `usize` words (64-bit platform) are `Nat`; every operation of the source
  keeps words below `2 ^ 64`, and where Rust can overflow (the `1 << 64` in
  `round_capacity_up`) the release-mode masked-shift semantics is used
  explicitly.
* A `Layer` is the list of its words (`Layer::bits` with `Layer::cap`
  entries).  Out-of-bounds slice indexing, which panics in Rust, is modelled
  as reading the word `0` and as a no-op write; theorems carry the
  in-bounds/capacity hypotheses that correspond to the source's panic-freedom
  conditions.
* The two unbounded loops (`bit_set_layout`'s generator and the outer loop of
  `Drain::next`) are written with explicit fuel; fuel sufficiency is proved
  where the claims need it.
-/

/-- Bits in a single usize (64-bit platform). -/
def BITS : Nat := 64

/-- `BITS.trailing_zeros()`. -/
def BITS_SHIFT : Nat := 6

/-- The largest usize value, `2 ^ 64 - 1`; `!x` on usize is `USIZE_MAX ^^^ x`. -/
def USIZE_MAX : Nat := 2 ^ 64 - 1

/-- One hierarchy layer: the list of its words. -/
abbrev Layer := List Nat

/-- `Layer::with_capacity`: `cap` zero-initialized words. -/
def Layer.with_capacity (cap : Nat) : Layer := List.replicate cap 0

/-- `Layer::set`: `*self.slot_mut(slot) |= 1 << offset`. -/
def Layer.set (l : Layer) (slot offset : Nat) : Layer :=
  List.set l slot (l.getD slot 0 ||| (1 <<< offset))

/-- `Layer::clear`: `*self.slot_mut(slot) &= !(1 << offset)`. -/
def Layer.clear (l : Layer) (slot offset : Nat) : Layer :=
  List.set l slot (l.getD slot 0 &&& (USIZE_MAX ^^^ (1 <<< offset)))

/-- `Layer::test`: `*self.slot(slot) & (1 << offset) > 0`. -/
def Layer.test (l : Layer) (slot offset : Nat) : Bool :=
  l.getD slot 0 &&& (1 <<< offset) != 0

/-- `Layer::grow`: extend to `new` words, preserving contents, zero-filling;
no-op if `new <= self.cap`. -/
def Layer.grow (l : Layer) (new : Nat) : Layer :=
  if new ≤ l.length then l else l ++ List.replicate (new - l.length) 0

/-- `BitSet`: the layers (finest first) and the capacity in bits. -/
structure BitSet where
  layers : List Layer
  cap : Nat

/-- `BitSet::new`. -/
def BitSet.new : BitSet := ⟨[], 0⟩

/-- `BitSet::is_empty`: all words of layer 0 are zero (true when no layers). -/
def BitSet.is_empty (b : BitSet) : Bool :=
  match b.layers with
  | [] => true
  | l0 :: _ => l0.all (fun w => w == 0)

/-- The per-layer loop of `BitSet::set`: each layer sets bit
`position % BITS` of word `position / BITS`, then `position >>= BITS_SHIFT`. -/
def setLayers : List Layer → Nat → List Layer
  | [], _ => []
  | l :: ls, position =>
    Layer.set l (position / BITS) (position % BITS) :: setLayers ls (position >>> BITS_SHIFT)

/-- `BitSet::set` (the `position < self.cap` assertion becomes a hypothesis of
the theorems about it). -/
def BitSet.set (b : BitSet) (position : Nat) : BitSet :=
  ⟨setLayers b.layers position, b.cap⟩

/-- The per-layer loop of `BitSet::clear`. -/
def clearLayers : List Layer → Nat → List Layer
  | [], _ => []
  | l :: ls, position =>
    Layer.clear l (position / BITS) (position % BITS) :: clearLayers ls (position >>> BITS_SHIFT)

/-- `BitSet::clear` (assertion modelled as for `set`). -/
def BitSet.clear (b : BitSet) (position : Nat) : BitSet :=
  ⟨clearLayers b.layers position, b.cap⟩

/-- `BitSet::test`: reads only layer 0. -/
def BitSet.test (b : BitSet) (position : Nat) : Bool :=
  Layer.test (b.layers.getD 0 []) (position / BITS) (position % BITS)

/-- Binary length of `x` (number of significant bits), correct for
`x < 2 ^ fuel`. -/
def bitLenAux : Nat → Nat → Nat
  | 0, _ => 0
  | fuel + 1, x => if x == 0 then 0 else bitLenAux fuel (x / 2) + 1

/-- `usize::leading_zeros` on a 64-bit platform. -/
def leading_zeros (x : Nat) : Nat := 64 - bitLenAux 64 x

/-- Helper for `trailing_zeros`, correct for `x < 2 ^ fuel`. -/
def trailingAux : Nat → Nat → Nat
  | 0, _ => 0
  | fuel + 1, x => if x % 2 == 1 then 0 else trailingAux fuel (x / 2) + 1

/-- `usize::trailing_zeros` on a 64-bit platform: 64 for `x = 0`, otherwise
the index of the lowest set bit. -/
def trailing_zeros (x : Nat) : Nat := trailingAux 64 x

/-- `round_capacity_up`.  For a non-power-of-two above `2 ^ 63` the source
computes `1 << 64`, which is an overflow: the release-mode masked shift
(`1 << ((64 - lz) % 64)`) is modelled (debug builds panic there).  The
`leading == 64` early return of the source is unreachable for nonzero input
but is kept. -/
def round_capacity_up (cap : Nat) : Nat :=
  if cap == 0 then 0
  else if 64 - leading_zeros cap == trailing_zeros cap + 1 then max 16 cap
  else if leading_zeros cap == 64 then USIZE_MAX
  else max 16 (1 <<< ((64 - leading_zeros cap) % 64))

/-- `round_bits_up`. -/
def round_bits_up (value : Nat) : Nat :=
  let m := value % BITS
  if m == 0 then value else value + (BITS - m)

/-- The generator loop of `bit_set_layout`; fuel 64 is enough for any usize
capacity (each step divides by `BITS`). -/
def bitSetLayoutAux : Nat → Nat → List Nat
  | 0, _ => []
  | fuel + 1, cap =>
    if cap == 1 then []
    else
      let c := round_bits_up cap / BITS
      if 0 < c then c :: bitSetLayoutAux fuel c else []

/-- `bit_set_layout`, as the list of the layers' word counts
(`LayerLayout::cap`), finest layer first. -/
def bit_set_layout (capacity : Nat) : List Nat :=
  bitSetLayoutAux 64 (round_bits_up capacity)

/-- The pairing loop of `BitSet::reserve`: existing layers grow to the new
layout's word count, remaining new layouts become fresh zeroed layers,
existing layers beyond the new layout are kept. -/
def growLayers : List Layer → List Nat → List Layer
  | olds, [] => olds
  | [], news => news.map Layer.with_capacity
  | old :: olds, c :: news => Layer.grow old c :: growLayers olds news

/-- `BitSet::reserve`. -/
def BitSet.reserve (b : BitSet) (cap : Nat) : BitSet :=
  if cap ≤ b.cap then b
  else
    ⟨growLayers b.layers (bit_set_layout (round_capacity_up cap)),
      round_capacity_up cap⟩

/-- `BitSet::with_capacity`. -/
def BitSet.with_capacity (capacity : Nat) : BitSet := BitSet.new.reserve capacity

/-- The state of a `Drain` cursor: the borrowed layers and the `index`/`depth`
fields. -/
structure DrainState where
  layers : List Layer
  index : Nat
  depth : Nat

/-- Word `slot` of layer `d` (0 when out of range, where Rust would panic). -/
def wordAt (layers : List Layer) (d slot : Nat) : Nat := (layers.getD d []).getD slot 0

/-- Replace word `slot` of layer `d` (no-op when out of range). -/
def setWordAt (layers : List Layer) (d slot w : Nat) : List Layer :=
  layers.set d (List.set (layers.getD d []) slot w)

/-- The `for (depth, layer) in (1..).zip(self.layers[1..])` ascent loop of
`Drain::next`: clear the summary bit of the just-emptied word at each coarser
layer; stop at the first layer whose word stays nonzero.  `i` is `self.index`,
`idx` the position being yielded.  Fuel `layers.length` covers all depths. -/
def drainAscend (i idx : Nat) : Nat → Nat → List Layer → List Layer × Option (Nat × Nat)
  | 0, _, layers => (layers, none)
  | fuel + 1, depth, layers =>
    if depth < layers.length then
      let shift := depth * BITS_SHIFT
      let offset := i / (BITS <<< shift)
      let mask := USIZE_MAX ^^^ (1 <<< ((idx >>> shift) % BITS))
      let w := wordAt layers depth offset &&& mask
      let layers1 := setWordAt layers depth offset w
      if w == 0 then drainAscend i idx fuel (depth + 1) layers1
      else
        let newIndex := offset * (BITS <<< shift) + (trailing_zeros w <<< shift)
        (layers1, some (depth, newIndex))
    else (layers, none)

/-- The outer `while self.depth < self.layers.len()` loop of `Drain::next`,
with explicit fuel for the loop iterations.  Returns `none` when the fuel runs
out (never, for reachable states: see the termination theorem), otherwise the
iterator's `Option<usize>` answer and the successor state. -/
def drainNextGo : Nat → DrainState → Option (Option Nat × DrainState)
  | 0, _ => none
  | fuel + 1, s =>
    if s.depth < s.layers.length then
      let shift := s.depth * BITS_SHIFT
      let offset := s.index / (BITS <<< shift)
      let w := wordAt s.layers s.depth offset
      if w == 0 then drainNextGo fuel ⟨s.layers, s.index, s.depth + 1⟩
      else if 0 < s.depth then
        let newIndex := offset * (BITS <<< shift) + (trailing_zeros w <<< shift)
        drainNextGo fuel ⟨s.layers, newIndex, s.depth - 1⟩
      else
        let trail := trailing_zeros w
        let idx := s.index + trail
        let w1 := w &&& (USIZE_MAX ^^^ (1 <<< trail))
        let layers1 := setWordAt s.layers 0 offset w1
        if w1 == 0 then
          match drainAscend s.index idx layers1.length 1 layers1 with
          | (layers2, some di) => some (some idx, ⟨layers2, di.2, di.1⟩)
          | (layers2, none) => some (some idx, ⟨layers2, s.index, layers2.length⟩)
        else some (some idx, ⟨layers1, s.index, s.depth⟩)
    else some (none, s)

/-- One `Iterator::next` call on `Drain`; `2 * len + 2` outer iterations always
suffice on reachable states (proved below).  On fuel exhaustion the state is
returned unchanged. -/
def drainStep (s : DrainState) : Option Nat × DrainState :=
  (drainNextGo (2 * s.layers.length + 2) s).getD (none, s)

/-- `BitSet::drain`: initial cursor state (`depth = len - 1` saturating,
`index = 0`). -/
def BitSet.drainInit (b : BitSet) : DrainState := ⟨b.layers, 0, b.layers.length - 1⟩

/-- The cursor state after `k` calls to `Drain::next`. -/
def drainIter (s : DrainState) : Nat → DrainState
  | 0 => s
  | k + 1 => (drainStep (drainIter s k)).2

/-- The bit set left behind when the `Drain` borrow is dropped after `k` calls
to `next`. -/
def BitSet.drainSteps (b : BitSet) (k : Nat) : BitSet :=
  ⟨(drainIter b.drainInit k).layers, b.cap⟩

/-- Collect up to `fuel` yielded positions from successive `next` calls. -/
def drainCollect : Nat → DrainState → List Nat × DrainState
  | 0, s => ([], s)
  | k + 1, s =>
    match drainStep s with
    | (some p, s1) =>
      let r := drainCollect k s1
      (p :: r.1, r.2)
    | (none, s1) => ([], s1)

/-- Running `drain().collect()` to exhaustion: the yielded positions and the
remaining bit set.  `64 * |layer 0| + 1` next-calls exhaust any set. -/
def BitSet.drainAll (b : BitSet) : List Nat × BitSet :=
  let r := drainCollect (64 * (b.layers.getD 0 []).length + 1) b.drainInit
  (r.1, ⟨r.2.layers, b.cap⟩)

/-- `AtomicBitSet`; `AtomicLayer` is bit-identical to `Layer`, so its contents
are modelled by the same word lists. -/
structure AtomicBitSet where
  layers : List Layer
  cap : Nat

/-- `convert_vec` reinterprets the vector in place: contents unchanged. -/
def convert_vec (v : List Layer) : List Layer := v

/-- `BitSet::into_atomic` (the `mem::replace` leaves the consumed set empty,
which the ownership transfer makes unobservable). -/
def BitSet.into_atomic (b : BitSet) : AtomicBitSet := ⟨convert_vec b.layers, b.cap⟩

/-- `AtomicBitSet::into_local`. -/
def AtomicBitSet.into_local (a : AtomicBitSet) : BitSet := ⟨convert_vec a.layers, a.cap⟩

/-- `AtomicBitSet::set` (fetch_or; same contents as the local `set` for any
single interleaving). -/
def AtomicBitSet.set (a : AtomicBitSet) (position : Nat) : AtomicBitSet :=
  ⟨setLayers a.layers position, a.cap⟩

/-- Membership of position `p`: bit `p % 64` of word `p / 64` of layer 0. -/
def elem (layers : List Layer) (p : Nat) : Prop :=
  Nat.testBit (wordAt layers 0 (p / 64)) (p % 64) = true

/-- Upward summary soundness: a set summary bit has a nonzero word below it
(the half of the summary invariant that `clear` cannot break). -/
def upOk (L : List Layer) : Prop :=
  ∀ d j, d + 1 < L.length →
    Nat.testBit (wordAt L (d + 1) (j / 64)) (j % 64) = true → wordAt L d j ≠ 0

/-- The exact summary invariant: a summary bit is set iff the word it
summarizes is nonzero. -/
def sumOk (L : List Layer) : Prop :=
  ∀ d j, d + 1 < L.length →
    (Nat.testBit (wordAt L (d + 1) (j / 64)) (j % 64) = true ↔ wordAt L d j ≠ 0)

/-- Every word is a usize value. -/
def wordsLt (L : List Layer) : Prop := ∀ d j, wordAt L d j < 2 ^ 64

/-- Every word of the topmost layer other than word 0 is zero. -/
def spareTop (L : List Layer) : Prop := ∀ j, 1 ≤ j → wordAt L (L.length - 1) j = 0

/-- Every position below `cap` has its word allocated at every layer. -/
def goodLens (L : List Layer) (cap : Nat) : Prop :=
  ∀ d, d < L.length → ∀ p, p < cap → p >>> (6 * d + 6) < (L.getD d []).length

/-- Every layer has at least one word. -/
def lensPos (L : List Layer) : Prop := ∀ d, d < L.length → 0 < (L.getD d []).length

/-- The single top word can summarize the whole capacity. -/
def capOk (b : BitSet) : Prop := b.cap ≤ 2 ^ (6 * b.layers.length)

/-- Well-formedness carried by every reachable bit set. -/
structure WF (b : BitSet) : Prop where
  wlt : wordsLt b.layers
  spare : spareTop b.layers
  lens : goodLens b.layers b.cap
  lpos : lensPos b.layers
  capok : capOk b

/-- The structural invariant available on all reachable states, `clear`
included: well-formedness plus upward summary soundness. -/
structure RInv (b : BitSet) : Prop where
  wf : WF b
  up : upOk b.layers

/-- The full invariant available when no `clear` interferes: well-formedness
plus the exact summary invariant. -/
structure EInv (b : BitSet) : Prop where
  wf : WF b
  sum : sumOk b.layers

/-- Invariant of a `Drain` cursor state in the exact (`sumOk`) setting. -/
structure DInv (s : DrainState) : Prop where
  sum : sumOk s.layers
  wlt : wordsLt s.layers
  spare : spareTop s.layers
  dle : s.depth ≤ s.layers.length
  hib : s.depth < s.layers.length → s.index < 2 ^ (6 * s.layers.length)
  align : s.depth = 0 → s.index % 64 = 0
  lower : s.depth < s.layers.length → ∀ p, elem s.layers p →
    s.index / 2 ^ (6 * s.depth + 6) * 2 ^ (6 * s.depth + 6) ≤ p
  exh : s.layers.length ≤ s.depth → ∀ p, ¬ elem s.layers p

/-- Invariant of a `Drain` cursor state in the `clear`-tolerant setting:
enough for termination. -/
structure USess (s : DrainState) : Prop where
  up : upOk s.layers
  wlt : wordsLt s.layers
  align : s.depth = 0 → s.index % 64 = 0

/-- States reachable by any sequence of the mutating operations, including
`clear` and partial drains (the `p < cap` hypotheses are the assertions of
`set`/`clear`). -/
inductive Reach : BitSet → Prop
  | new : Reach BitSet.new
  | reserve (b : BitSet) (n : Nat) : Reach b → n < 2 ^ 64 → Reach (b.reserve n)
  | set (b : BitSet) (p : Nat) : Reach b → p < b.cap → Reach (b.set p)
  | clear (b : BitSet) (p : Nat) : Reach b → p < b.cap → Reach (b.clear p)
  | drain (b : BitSet) (k : Nat) : Reach b → Reach (b.drainSteps k)

/-- States reachable without `clear` and with every `reserve` performed while
the bit set is empty. -/
inductive ReachE : BitSet → Prop
  | new : ReachE BitSet.new
  | reserve (b : BitSet) (n : Nat) : ReachE b → n < 2 ^ 64 → b.is_empty = true →
      ReachE (b.reserve n)
  | set (b : BitSet) (p : Nat) : ReachE b → p < b.cap → ReachE (b.set p)
  | drain (b : BitSet) (k : Nat) : ReachE b → ReachE (b.drainSteps k)

/-- Postcondition of the ascent-clearing loop of `Drain::next`, entered at
depth `e` with `self.index = i`: the layers keep their shape, words only
shrink, layer 0 is untouched, the exact summary invariant is restored, and
the outcome either proves the hierarchy empty or provides a valid stopping
depth and index. -/
def AscendPost (M : List Layer) (i : Nat) (M2 : List Layer) (r : Option (Nat × Nat))
    (e : Nat) : Prop :=
  M2.length = M.length ∧
  (∀ f, (M2.getD f []).length = (M.getD f []).length) ∧
  (∀ f j, wordAt M2 f j ≤ wordAt M f j) ∧
  (∀ j, wordAt M2 0 j = wordAt M 0 j) ∧
  sumOk M2 ∧
  (match r with
    | none => ∀ f j, wordAt M2 f j = 0
    | some di =>
        e ≤ di.1 ∧ di.1 < M2.length ∧ di.2 < 2 ^ (6 * M2.length) ∧
        wordAt M2 di.1 (di.2 / 2 ^ (6 * di.1 + 6)) ≠ 0 ∧
        di.2 / 2 ^ (6 * di.1 + 6) * 2 ^ (6 * di.1 + 6) ≤ i)

/-- Postcondition of a successful `Drain::next` call on layers `L` that
yields position `q` and leaves cursor state `s1`: `q` was the least set
position, it is now cleared (and nothing else changed in layer 0), the
cursor invariant holds again, and the layers only shrank, keeping their
shape. -/
def NextPost (L : List Layer) (q : Nat) (s1 : DrainState) : Prop :=
  elem L q ∧ (∀ p, elem L p → q ≤ p) ∧
  (∀ p, elem s1.layers p ↔ (elem L p ∧ p ≠ q)) ∧
  DInv s1 ∧
  s1.layers.length = L.length ∧
  (∀ f, (s1.layers.getD f []).length = (L.getD f []).length) ∧
  (∀ f j, wordAt s1.layers f j ≤ wordAt L f j)

/-- Postcondition of a `Drain::next` call in the `clear`-tolerant setting
(only upward soundness is maintained): the new cursor state is again usable
and the layers only shrank, keeping their shape. -/
def UPost (L : List Layer) (s1 : DrainState) : Prop :=
  upOk s1.layers ∧ wordsLt s1.layers ∧ (s1.depth = 0 → s1.index % 64 = 0) ∧
  s1.layers.length = L.length ∧
  (∀ f, (s1.layers.getD f []).length = (L.getD f []).length) ∧
  (∀ f j, wordAt s1.layers f j ≤ wordAt L f j)

-- Sanity checks against the source's unit tests.

example : bit_set_layout 0 = [] := by decide
example : bit_set_layout 64 = [1] := by decide
example : bit_set_layout 128 = [2, 1] := by decide
example : bit_set_layout 4096 = [64, 1] := by decide
example : bit_set_layout 4097 = [65, 2, 1] := by decide
example : bit_set_layout 65 = [2, 1] := by decide
example : bit_set_layout 129 = [3, 1] := by decide

example : round_capacity_up 0 = 0 := by decide
example : round_capacity_up 1 = 16 := by decide
example : round_capacity_up 17 = 32 := by decide
example : round_capacity_up 32 = 32 := by decide
example : round_capacity_up (2 ^ 63 - 1) = 2 ^ 63 := by decide

example : ((BitSet.with_capacity 128).set 1 |>.set 5).layers = [[34, 0], [1]] := by decide

example : ((BitSet.with_capacity 64).set 0).drainAll.1 = [0] := by decide
example : (((BitSet.with_capacity 128).set 0 |>.set 32 |>.set 64).drainAll).1 = [0, 32, 64] := by
  decide

/-! ### List access helpers -/

theorem getD_set_self {α : Type} (l : List α) (i : Nat) (x d : α) (h : i < l.length) :
    (List.set l i x).getD i d = x := by
  simp [List.getD_eq_getElem?_getD, List.getElem?_set, h]

theorem getD_set_ne {α : Type} (l : List α) {i j : Nat} (x d : α) (h : i ≠ j) :
    (List.set l i x).getD j d = l.getD j d := by
  simp [List.getD_eq_getElem?_getD, List.getElem?_set, h]

theorem length_setWordAt (L : List Layer) (d o w : Nat) :
    (setWordAt L d o w).length = L.length := by
  simp [setWordAt]

theorem row_length_setWordAt (L : List Layer) (d o w e : Nat) :
    ((setWordAt L d o w).getD e []).length = ((L.getD e []).length) := by
  unfold setWordAt
  by_cases hd : d < L.length
  · by_cases he : d = e
    · subst he; rw [getD_set_self _ _ _ _ hd, List.length_set]
    · rw [getD_set_ne _ _ _ he]
  · rw [List.set_eq_of_length_le (le_of_not_lt hd)]

theorem wordAt_setWordAt_self (L : List Layer) (d o w : Nat) (hd : d < L.length)
    (ho : o < (L.getD d []).length) : wordAt (setWordAt L d o w) d o = w := by
  unfold wordAt setWordAt
  rw [getD_set_self _ _ _ _ hd, getD_set_self _ _ _ _ ho]

theorem wordAt_setWordAt_ne (L : List Layer) {d o e j : Nat} (w : Nat)
    (h : ¬(d = e ∧ o = j)) : wordAt (setWordAt L d o w) e j = wordAt L e j := by
  unfold wordAt setWordAt
  by_cases hd : d < L.length
  · by_cases hde : d = e
    · subst hde
      have hoj : o ≠ j := fun hc => h ⟨rfl, hc⟩
      rw [getD_set_self _ _ _ _ hd, getD_set_ne _ _ _ hoj]
    · rw [getD_set_ne _ _ _ hde]
  · rw [List.set_eq_of_length_le (le_of_not_lt hd)]

theorem wordAt_oob (L : List Layer) {d : Nat} (j : Nat) (h : L.length ≤ d) :
    wordAt L d j = 0 := by
  unfold wordAt
  rw [List.getD_eq_default _ _ h]
  rfl

/-! ### Bit-twiddling helpers -/

theorem testBit_ge_64 {w : Nat} (hw : w < 2 ^ 64) {j : Nat} (hj : 64 ≤ j) :
    w.testBit j = false :=
  Nat.testBit_lt_two_pow (lt_of_lt_of_le hw (Nat.pow_le_pow_right (by norm_num) hj))

theorem ne_zero_iff_testBit (x : Nat) : x ≠ 0 ↔ ∃ i, x.testBit i = true := by
  constructor
  · intro h
    by_contra hc
    push_neg at hc
    refine h (Nat.eq_of_testBit_eq fun i => ?_)
    rw [Nat.zero_testBit]
    exact Bool.not_eq_true _ ▸ hc i
  · rintro ⟨i, hi⟩ h0
    rw [h0, Nat.zero_testBit] at hi
    exact Bool.false_ne_true hi

theorem and_pow_ne_zero_iff (w o : Nat) : (w &&& 2 ^ o ≠ 0) ↔ w.testBit o = true := by
  rw [Nat.and_two_pow]
  cases h : w.testBit o
  · simp
  · simp [(Nat.two_pow_pos o).ne']

theorem Layer.test_eq_testBit (l : Layer) (s o : Nat) :
    Layer.test l s o = (l.getD s 0).testBit o := by
  rw [Bool.eq_iff_iff]
  simp only [Layer.test, bne_iff_ne, Nat.one_shiftLeft]
  rw [and_pow_ne_zero_iff]

theorem testBit_or_pow (w k j : Nat) :
    (w ||| 1 <<< k).testBit j = (w.testBit j || decide (j = k)) := by
  rw [Nat.one_shiftLeft, Nat.testBit_or]
  by_cases h : j = k
  · subst h; simp [Nat.testBit_two_pow_self]
  · simp [h, Nat.testBit_two_pow_of_ne (Ne.symm h)]

theorem testBit_and_mask (w k j : Nat) (hw : w < 2 ^ 64) (hk : k < 64) :
    (w &&& (USIZE_MAX ^^^ 1 <<< k)).testBit j = (w.testBit j && decide (j ≠ k)) := by
  rw [Nat.one_shiftLeft, Nat.testBit_and, Nat.testBit_xor]
  rw [show USIZE_MAX = 2 ^ 64 - 1 from rfl, Nat.testBit_two_pow_sub_one]
  by_cases hj : j < 64
  · by_cases h : j = k
    · subst h; simp [Nat.testBit_two_pow_self, hj]
    · simp [hj, h, Nat.testBit_two_pow_of_ne (Ne.symm h)]
  · have hwj : w.testBit j = false := testBit_ge_64 hw (le_of_not_lt hj)
    simp [hwj]

theorem and_le_lt_pow {w m : Nat} (hw : w < 2 ^ 64) : w &&& m < 2 ^ 64 :=
  lt_of_le_of_lt Nat.and_le_left hw

theorem or_pow_lt {w k : Nat} (hw : w < 2 ^ 64) (hk : k < 64) : w ||| 1 <<< k < 2 ^ 64 := by
  rw [Nat.one_shiftLeft]
  exact Nat.or_lt_two_pow hw (Nat.pow_lt_pow_right (by norm_num) hk)

/-! ### Power-of-two arithmetic helpers -/

theorem shift64 (n : Nat) : (64 : Nat) <<< n = 2 ^ (n + 6) := by
  rw [Nat.shiftLeft_eq, pow_add]
  ring

theorem shiftr_div (p a : Nat) : p >>> a = p / 2 ^ a := Nat.shiftRight_eq_div_pow p a

theorem div_pow_div_pow (p a b : Nat) : p / 2 ^ a / 2 ^ b = p / 2 ^ (a + b) := by
  rw [Nat.div_div_eq_div_mul, pow_add]

theorem align_mono (x a b : Nat) (h : a ∣ b) : x / b * b ≤ x / a * a := by
  obtain ⟨k, rfl⟩ := h
  calc x / (a * k) * (a * k) = x / a / k * k * a := by
        rw [Nat.div_div_eq_div_mul]; ring
    _ ≤ x / a * a := Nat.mul_le_mul_right a (Nat.div_mul_le_self _ k)

theorem align_add_le (x m M : Nat) (hm : 0 < m) (hdvd : m ∣ M) (hx : x < M) :
    x / m * m + m ≤ M := by
  obtain ⟨t, rfl⟩ := hdvd
  have h1 : x / m < t := by
    rw [Nat.div_lt_iff_lt_mul hm]
    calc x < m * t := hx
      _ = t * m := Nat.mul_comm m t
  calc x / m * m + m = (x / m + 1) * m := by ring
    _ ≤ t * m := Nat.mul_le_mul_right m h1
    _ = m * t := Nat.mul_comm t m

/-! ### trailing_zeros and bit length -/

theorem trailingAux_zero : ∀ fuel, trailingAux fuel 0 = fuel := by
  intro fuel
  induction fuel with
  | zero => rfl
  | succ n ih => simpa [trailingAux] using ih

theorem trailingAux_spec : ∀ fuel x, x ≠ 0 → x < 2 ^ fuel →
    x.testBit (trailingAux fuel x) = true ∧
      ∀ j, j < trailingAux fuel x → x.testBit j = false := by
  intro fuel
  induction fuel with
  | zero => intro x h0 h1; simp at h1; omega
  | succ n ih =>
    intro x h0 h1
    by_cases hx : x % 2 = 1
    · refine ⟨?_, ?_⟩
      · simp [trailingAux, hx, Nat.testBit_zero]
      · intro j hj
        simp [trailingAux, hx] at hj
    · have hx0 : x % 2 = 0 := by omega
      have hxe : x / 2 ≠ 0 := by omega
      have hlt : x / 2 < 2 ^ n := by
        rw [pow_succ] at h1; omega
      obtain ⟨ha, hb⟩ := ih (x / 2) hxe hlt
      have heq : trailingAux (n + 1) x = trailingAux n (x / 2) + 1 := by
        simp [trailingAux, hx]
      rw [heq]
      refine ⟨?_, ?_⟩
      · rw [Nat.testBit_succ]
        exact ha
      · intro j hj
        cases j with
        | zero => simp [Nat.testBit_zero, hx0]
        | succ m =>
          rw [Nat.testBit_succ]
          exact hb m (by omega)

theorem trailing_zeros_spec (x : Nat) (h0 : x ≠ 0) (h64 : x < 2 ^ 64) :
    x.testBit (trailing_zeros x) = true ∧
      ∀ j, j < trailing_zeros x → x.testBit j = false :=
  trailingAux_spec 64 x h0 h64

theorem trailing_zeros_lt (x : Nat) (h0 : x ≠ 0) (h64 : x < 2 ^ 64) :
    trailing_zeros x < 64 := by
  by_contra hc
  have := (trailing_zeros_spec x h0 h64).1
  rw [testBit_ge_64 h64 (le_of_not_lt hc)] at this
  exact Bool.false_ne_true this

theorem bitLenAux_le : ∀ fuel x, bitLenAux fuel x ≤ fuel := by
  intro fuel
  induction fuel with
  | zero => intro x; exact Nat.le_refl 0
  | succ n ih =>
    intro x
    by_cases hx : x = 0
    · simp [bitLenAux, hx]
    · simp only [bitLenAux, hx]
      have := ih (x / 2)
      simp [hx]
      omega

theorem bitLenAux_zero_arg : ∀ fuel, bitLenAux fuel 0 = 0 := by
  intro fuel
  cases fuel <;> simp [bitLenAux]

theorem bitLenAux_spec : ∀ fuel x, x < 2 ^ fuel → x ≠ 0 →
    1 ≤ bitLenAux fuel x ∧ 2 ^ (bitLenAux fuel x - 1) ≤ x ∧ x < 2 ^ bitLenAux fuel x := by
  intro fuel
  induction fuel with
  | zero => intro x h1 h0; simp at h1; omega
  | succ n ih =>
    intro x h1 h0
    have heq : bitLenAux (n + 1) x = bitLenAux n (x / 2) + 1 := by
      simp [bitLenAux, h0]
    by_cases hx1 : x / 2 = 0
    · rw [heq, hx1, bitLenAux_zero_arg]
      have : x = 1 := by omega
      subst this
      exact ⟨by omega, by simp, by norm_num⟩
    · have hlt : x / 2 < 2 ^ n := by
        rw [pow_succ] at h1; omega
      obtain ⟨l1, l2, l3⟩ := ih (x / 2) hlt hx1
      rw [heq]
      have hpow : 2 ^ bitLenAux n (x / 2) = 2 * 2 ^ (bitLenAux n (x / 2) - 1) := by
        conv_lhs => rw [show bitLenAux n (x / 2) = (bitLenAux n (x / 2) - 1) + 1 by omega]
        rw [pow_succ]; ring
      refine ⟨by omega, ?_, ?_⟩
      · rw [Nat.add_sub_cancel, hpow]
        omega
      · rw [pow_succ]
        omega

/-! ### round_capacity_up characterization -/

theorem mod_pow_eq_zero_of_bits (x t : Nat) (h : ∀ j, j < t → x.testBit j = false) :
    x % 2 ^ t = 0 := by
  refine Nat.eq_of_testBit_eq fun i => ?_
  rw [Nat.testBit_mod_two_pow, Nat.zero_testBit]
  by_cases hi : i < t
  · simp [h i hi]
  · simp [hi]

theorem eq_pow_of_cond (x : Nat) (hx : x < 2 ^ 64) (h0 : x ≠ 0)
    (hc : bitLenAux 64 x = trailing_zeros x + 1) : x = 2 ^ trailing_zeros x := by
  obtain ⟨l1, l2, l3⟩ := bitLenAux_spec 64 x hx h0
  obtain ⟨t1, t2⟩ := trailing_zeros_spec x h0 hx
  rw [hc, Nat.add_sub_cancel] at l2
  rw [hc] at l3
  have hmod : x % 2 ^ trailing_zeros x = 0 := mod_pow_eq_zero_of_bits _ _ t2
  obtain ⟨q, hq⟩ := Nat.dvd_of_mod_eq_zero hmod
  have hp := Nat.two_pow_pos (trailing_zeros x)
  have hq2 : q < 2 := by
    refine Nat.lt_of_mul_lt_mul_left (a := 2 ^ trailing_zeros x) ?_
    rw [← hq]
    rw [pow_succ] at l3
    exact l3
  have hq1 : 1 ≤ q := by
    by_contra hcq
    have : q = 0 := by omega
    rw [this, Nat.mul_zero] at hq
    exact h0 hq
  have hq' : q = 1 := by omega
  subst hq'
  rw [Nat.mul_one] at hq
  exact hq

theorem cond_of_pow (k : Nat) (hk : k ≤ 63) :
    bitLenAux 64 (2 ^ k) = k + 1 ∧ trailing_zeros (2 ^ k) = k := by
  have hlt : 2 ^ k < 2 ^ 64 := Nat.pow_lt_pow_right (by norm_num) (by omega)
  have h0 : (2 : Nat) ^ k ≠ 0 := (Nat.two_pow_pos k).ne'
  constructor
  · obtain ⟨l1, l2, l3⟩ := bitLenAux_spec 64 (2 ^ k) hlt h0
    have hb1 : bitLenAux 64 (2 ^ k) - 1 ≤ k := by
      by_contra hc
      have : 2 ^ k < 2 ^ (bitLenAux 64 (2 ^ k) - 1) :=
        Nat.pow_lt_pow_right (by norm_num) (by omega)
      omega
    have hb2 : k < bitLenAux 64 (2 ^ k) := by
      by_contra hc
      have : 2 ^ bitLenAux 64 (2 ^ k) ≤ 2 ^ k :=
        Nat.pow_le_pow_right (by norm_num) (by omega)
      omega
    omega
  · obtain ⟨t1, t2⟩ := trailing_zeros_spec (2 ^ k) h0 hlt
    by_contra hc
    rw [Nat.testBit_two_pow_of_ne (fun h => hc h.symm)] at t1
    exact Bool.false_ne_true t1

theorem rcu_eq (x : Nat) (h0 : x ≠ 0) :
    round_capacity_up x =
      if bitLenAux 64 x = trailing_zeros x + 1 then max 16 x
      else if bitLenAux 64 x = 0 then USIZE_MAX
      else max 16 (1 <<< (bitLenAux 64 x % 64)) := by
  have hBle := bitLenAux_le 64 x
  unfold round_capacity_up leading_zeros
  have h1 : 64 - (64 - bitLenAux 64 x) = bitLenAux 64 x := by omega
  have h2 : (64 - bitLenAux 64 x = 64) ↔ (bitLenAux 64 x = 0) := by omega
  simp only [h1, beq_iff_eq, h0, if_false, h2]

theorem max16_pow (j : Nat) : max 16 (2 ^ j) = 2 ^ max 4 j := by
  rcases le_total j 4 with h | h
  · have h1 : 2 ^ j ≤ 16 := by
      calc 2 ^ j ≤ 2 ^ 4 := Nat.pow_le_pow_right (by norm_num) h
        _ = 16 := by norm_num
    rw [Nat.max_eq_left h1, Nat.max_eq_left h]
    norm_num
  · have h1 : 16 ≤ 2 ^ j := by
      calc (16 : Nat) = 2 ^ 4 := by norm_num
        _ ≤ 2 ^ j := Nat.pow_le_pow_right (by norm_num) h
    rw [Nat.max_eq_right h1, Nat.max_eq_right h]

theorem rcu_shape (x : Nat) (hx : x < 2 ^ 64) (h0 : x ≠ 0) :
    ∃ k, 4 ≤ k ∧ k ≤ 63 ∧ round_capacity_up x = 2 ^ k := by
  have hBle := bitLenAux_le 64 x
  obtain ⟨l1, l2, l3⟩ := bitLenAux_spec 64 x hx h0
  rw [rcu_eq x h0]
  by_cases hc : bitLenAux 64 x = trailing_zeros x + 1
  · have hxpow := eq_pow_of_cond x hx h0 hc
    have htz63 : trailing_zeros x < 64 := trailing_zeros_lt x h0 hx
    refine ⟨max 4 (trailing_zeros x), Nat.le_max_left _ _, by omega, ?_⟩
    rw [if_pos hc]
    conv_lhs => rw [hxpow]
    exact max16_pow _
  · rw [if_neg hc, if_neg (by omega)]
    by_cases h64 : bitLenAux 64 x = 64
    · refine ⟨4, le_refl 4, by omega, ?_⟩
      rw [h64]
      norm_num
    · have hmod : bitLenAux 64 x % 64 = bitLenAux 64 x := Nat.mod_eq_of_lt (by omega)
      rw [hmod, Nat.one_shiftLeft, max16_pow]
      exact ⟨max 4 (bitLenAux 64 x), Nat.le_max_left _ _, by omega, rfl⟩

theorem rcu_pow_fixed (k : Nat) (h4 : 4 ≤ k) (h63 : k ≤ 63) :
    round_capacity_up (2 ^ k) = 2 ^ k := by
  obtain ⟨hb, ht⟩ := cond_of_pow k h63
  rw [rcu_eq _ (Nat.two_pow_pos k).ne', hb, ht, if_pos rfl]
  refine Nat.max_eq_right ?_
  calc (16 : Nat) = 2 ^ 4 := by norm_num
    _ ≤ 2 ^ k := Nat.pow_le_pow_right (by norm_num) h4

theorem rcu_idem (x : Nat) (hx : x < 2 ^ 64) :
    round_capacity_up (round_capacity_up x) = round_capacity_up x := by
  by_cases h0 : x = 0
  · subst h0; rfl
  · obtain ⟨k, h4, h63, hk⟩ := rcu_shape x hx h0
    rw [hk, rcu_pow_fixed k h4 h63]

theorem rcu_le (x : Nat) (hx : x < 2 ^ 64) : round_capacity_up x ≤ 2 ^ 63 := by
  by_cases h0 : x = 0
  · subst h0; exact Nat.zero_le _
  · obtain ⟨k, h4, h63, hk⟩ := rcu_shape x hx h0
    rw [hk]
    exact Nat.pow_le_pow_right (by norm_num) h63

/-! ### bit_set_layout -/

theorem round_bits_up_eq (v : Nat) : round_bits_up v = (v + 63) / 64 * 64 := by
  show (if v % 64 == 0 then v else v + (64 - v % 64)) = (v + 63) / 64 * 64
  by_cases h : v % 64 = 0 <;> simp [h] <;> omega

theorem bitSetLayoutAux_pos : ∀ fuel c x, x ∈ bitSetLayoutAux fuel c → 0 < x := by
  intro fuel
  induction fuel with
  | zero => intro c x h; simp [bitSetLayoutAux] at h
  | succ n ih =>
    intro c x h
    by_cases hc : c = 1
    · simp [bitSetLayoutAux, hc] at h
    · simp only [bitSetLayoutAux, beq_iff_eq, hc, if_false] at h
      by_cases hq : 0 < round_bits_up c / BITS
      · rw [if_pos hq] at h
        rcases List.mem_cons.mp h with h1 | h1
        · rw [h1]; exact hq
        · exact ih _ _ h1
      · rw [if_neg hq] at h
        simp at h

theorem bitSetLayoutAux_covers : ∀ fuel c, c ≤ 2 ^ (6 * fuel) →
    c ≤ 2 ^ (6 * (bitSetLayoutAux fuel c).length) := by
  intro fuel
  induction fuel with
  | zero => intro c h; simpa [bitSetLayoutAux] using h
  | succ n ih =>
    intro c h
    by_cases hc : c = 1
    · simp [bitSetLayoutAux, hc]
    · simp only [bitSetLayoutAux, beq_iff_eq, hc, if_false]
      have hrb : round_bits_up c / BITS = (c + 63) / 64 := by
        rw [round_bits_up_eq]
        show (c + 63) / 64 * 64 / 64 = (c + 63) / 64
        exact Nat.mul_div_cancel _ (by norm_num)
      rw [hrb]
      by_cases hq : 0 < (c + 63) / 64
      · rw [if_pos hq]
        have hpow : 2 ^ (6 * (n + 1)) = 64 * 2 ^ (6 * n) := by
          rw [show 6 * (n + 1) = 6 * n + 6 by ring, pow_add]
          ring
        have hcc : (c + 63) / 64 ≤ 2 ^ (6 * n) := by
          rw [hpow] at h
          omega
        have hrest := ih ((c + 63) / 64) hcc
        have hc64 : c ≤ 64 * ((c + 63) / 64) := by omega
        calc c ≤ 64 * ((c + 63) / 64) := hc64
          _ ≤ 64 * 2 ^ (6 * (bitSetLayoutAux n ((c + 63) / 64)).length) :=
              Nat.mul_le_mul_left 64 hrest
          _ = 2 ^ (6 * ((bitSetLayoutAux n ((c + 63) / 64)).length + 1)) := by
              rw [show 6 * ((bitSetLayoutAux n ((c + 63) / 64)).length + 1)
                    = 6 * (bitSetLayoutAux n ((c + 63) / 64)).length + 6 by ring, pow_add]
              ring
          _ = 2 ^ (6 * (((c + 63) / 64 :: bitSetLayoutAux n ((c + 63) / 64)).length)) := by
              rw [List.length_cons]
      · rw [if_neg hq]
        have : c = 0 := by omega
        simp [this]

theorem bitSetLayoutAux_slots : ∀ fuel c d p, p < c → d < (bitSetLayoutAux fuel c).length →
    p / 2 ^ (6 * d + 6) < (bitSetLayoutAux fuel c).getD d 0 := by
  intro fuel
  induction fuel with
  | zero => intro c d p _ hd; simp [bitSetLayoutAux] at hd
  | succ n ih =>
    intro c d p hp hd
    by_cases hc : c = 1
    · simp [bitSetLayoutAux, hc] at hd
    · simp only [bitSetLayoutAux, beq_iff_eq, hc, if_false] at hd ⊢
      have hrb : round_bits_up c / BITS = (c + 63) / 64 := by
        rw [round_bits_up_eq]
        show (c + 63) / 64 * 64 / 64 = (c + 63) / 64
        exact Nat.mul_div_cancel _ (by norm_num)
      rw [hrb] at hd ⊢
      have hq : 0 < (c + 63) / 64 := by omega
      rw [if_pos hq] at hd ⊢
      cases d with
      | zero =>
        rw [List.getD_cons_zero]
        show p / 2 ^ 6 < (c + 63) / 64
        omega
      | succ m =>
        rw [List.getD_cons_succ]
        rw [List.length_cons] at hd
        have hstep : p / 64 < (c + 63) / 64 := by omega
        have := ih ((c + 63) / 64) m (p / 64) hstep (by omega)
        calc p / 2 ^ (6 * (m + 1) + 6) = p / 2 ^ 6 / 2 ^ (6 * m + 6) := by
              rw [div_pow_div_pow]
              congr 1
              ring
          _ = p / 64 / 2 ^ (6 * m + 6) := by norm_num
          _ < _ := this

theorem bit_set_layout_covers (c : Nat) (hc : c ≤ 2 ^ 63) :
    c ≤ 2 ^ (6 * (bit_set_layout c).length) := by
  unfold bit_set_layout
  have h1 : c ≤ round_bits_up c := by rw [round_bits_up_eq]; omega
  have h2 : round_bits_up c ≤ 2 ^ (6 * 64) := by
    rw [round_bits_up_eq]
    have : (2 : Nat) ^ 63 + 64 ≤ 2 ^ (6 * 64) := by norm_num
    omega
  exact le_trans h1 (bitSetLayoutAux_covers 64 _ h2)

theorem bit_set_layout_slots (c d p : Nat) (hp : p < c) (hc : c ≤ 2 ^ 63)
    (hd : d < (bit_set_layout c).length) :
    p / 2 ^ (6 * d + 6) < (bit_set_layout c).getD d 0 := by
  unfold bit_set_layout at hd ⊢
  have h1 : c ≤ round_bits_up c := by rw [round_bits_up_eq]; omega
  exact bitSetLayoutAux_slots 64 _ d p (by omega) hd

theorem bit_set_layout_pos (c x : Nat) (h : x ∈ bit_set_layout c) : 0 < x :=
  bitSetLayoutAux_pos 64 _ x h

/-! ### Layer.grow and growLayers -/

theorem replicate_getD (n j : Nat) : (List.replicate n (0 : Nat)).getD j 0 = 0 := by
  induction n generalizing j with
  | zero => rfl
  | succ m ih =>
    cases j with
    | zero => rfl
    | succ i => simpa [List.replicate] using ih i

theorem Layer.grow_length (l : Layer) (n : Nat) : (Layer.grow l n).length = max l.length n := by
  unfold Layer.grow
  by_cases h : n ≤ l.length <;> simp [h] <;> omega

theorem Layer.grow_getD (l : Layer) (n j : Nat) : (Layer.grow l n).getD j 0 = l.getD j 0 := by
  unfold Layer.grow
  by_cases h : n ≤ l.length
  · rw [if_pos h]
  · rw [if_neg h]
    by_cases hj : j < l.length
    · exact List.getD_append _ _ _ _ hj
    · rw [List.getD_append_right _ _ _ _ (le_of_not_lt hj),
        List.getD_eq_default _ _ (le_of_not_lt hj), replicate_getD]

theorem with_capacity_getD (c j : Nat) : (Layer.with_capacity c).getD j 0 = 0 :=
  replicate_getD c j

theorem growLayers_length : ∀ (L : List Layer) (ns : List Nat),
    (growLayers L ns).length = max L.length ns.length := by
  intro L
  induction L with
  | nil =>
    intro ns
    cases ns with
    | nil => rfl
    | cons c cs => simp [growLayers]
  | cons l ls ih =>
    intro ns
    cases ns with
    | nil => simp [growLayers]
    | cons c cs =>
      simp only [growLayers, List.length_cons, ih]
      omega

theorem mapped_with_capacity_wordAt (ns : List Nat) (d j : Nat) :
    wordAt (ns.map Layer.with_capacity) d j = 0 := by
  induction ns generalizing d with
  | nil => rfl
  | cons c cs ih =>
    cases d with
    | zero => exact with_capacity_getD c j
    | succ m => exact ih m

theorem growLayers_wordAt : ∀ (L : List Layer) (ns : List Nat) (d j : Nat),
    wordAt (growLayers L ns) d j = wordAt L d j := by
  intro L
  induction L with
  | nil =>
    intro ns d j
    cases ns with
    | nil => rfl
    | cons c cs =>
      show wordAt ((c :: cs).map Layer.with_capacity) d j = wordAt [] d j
      rw [mapped_with_capacity_wordAt]
      rfl
  | cons l ls ih =>
    intro ns d j
    cases ns with
    | nil => rfl
    | cons c cs =>
      cases d with
      | zero => exact Layer.grow_getD l c j
      | succ m => exact ih cs m j

theorem growLayers_nil_eq (ns : List Nat) : growLayers [] ns = ns.map Layer.with_capacity := by
  cases ns <;> rfl

theorem map_with_capacity_row_length (ns : List Nat) (d : Nat) :
    ((ns.map Layer.with_capacity).getD d []).length = ns.getD d 0 := by
  induction ns generalizing d with
  | nil => simp
  | cons c cs ih =>
    cases d with
    | zero =>
      show (Layer.with_capacity c).length = c
      simp [Layer.with_capacity]
    | succ m => exact ih m

theorem growLayers_row_length : ∀ (L : List Layer) (ns : List Nat) (d : Nat),
    ((growLayers L ns).getD d []).length = max ((L.getD d []).length) (ns.getD d 0) := by
  intro L
  induction L with
  | nil =>
    intro ns d
    rw [growLayers_nil_eq, map_with_capacity_row_length]
    simp
  | cons l ls ih =>
    intro ns d
    cases ns with
    | nil => simp [growLayers]
    | cons c cs =>
      cases d with
      | zero =>
        show (Layer.grow l c).length = max l.length c
        exact Layer.grow_length l c
      | succ m => exact ih cs m

/-! ### setLayers and clearLayers -/

theorem setLayers_length : ∀ (L : List Layer) (p : Nat), (setLayers L p).length = L.length := by
  intro L
  induction L with
  | nil => intro p; rfl
  | cons l ls ih => intro p; simp [setLayers, Layer.set, ih]

theorem clearLayers_length : ∀ (L : List Layer) (p : Nat),
    (clearLayers L p).length = L.length := by
  intro L
  induction L with
  | nil => intro p; rfl
  | cons l ls ih => intro p; simp [clearLayers, Layer.clear, ih]

theorem setLayers_getD : ∀ (L : List Layer) (p d : Nat),
    (setLayers L p).getD d [] =
      if d < L.length then
        Layer.set (L.getD d []) (p >>> (6 * d) / 64) (p >>> (6 * d) % 64)
      else [] := by
  intro L
  induction L with
  | nil => intro p d; simp [setLayers]
  | cons l ls ih =>
    intro p d
    cases d with
    | zero =>
      simp only [setLayers, List.getD_cons_zero, List.length_cons]
      rw [if_pos (Nat.succ_pos _)]
      rw [show 6 * 0 = 0 by ring, Nat.shiftRight_zero]
      rfl
    | succ m =>
      simp only [setLayers, List.getD_cons_succ, List.length_cons]
      rw [ih (p >>> BITS_SHIFT) m]
      have harg : p >>> BITS_SHIFT >>> (6 * m) = p >>> (6 * (m + 1)) := by
        show p >>> 6 >>> (6 * m) = p >>> (6 * (m + 1))
        rw [← Nat.shiftRight_add]
        congr 1
        ring
      rw [harg]
      by_cases hm : m < ls.length
      · rw [if_pos hm, if_pos (by omega)]
      · rw [if_neg hm, if_neg (by omega)]

theorem clearLayers_getD : ∀ (L : List Layer) (p d : Nat),
    (clearLayers L p).getD d [] =
      if d < L.length then
        Layer.clear (L.getD d []) (p >>> (6 * d) / 64) (p >>> (6 * d) % 64)
      else [] := by
  intro L
  induction L with
  | nil => intro p d; simp [clearLayers]
  | cons l ls ih =>
    intro p d
    cases d with
    | zero =>
      simp only [clearLayers, List.getD_cons_zero, List.length_cons]
      rw [if_pos (Nat.succ_pos _)]
      rw [show 6 * 0 = 0 by ring, Nat.shiftRight_zero]
      rfl
    | succ m =>
      simp only [clearLayers, List.getD_cons_succ, List.length_cons]
      rw [ih (p >>> BITS_SHIFT) m]
      have harg : p >>> BITS_SHIFT >>> (6 * m) = p >>> (6 * (m + 1)) := by
        show p >>> 6 >>> (6 * m) = p >>> (6 * (m + 1))
        rw [← Nat.shiftRight_add]
        congr 1
        ring
      rw [harg]
      by_cases hm : m < ls.length
      · rw [if_pos hm, if_pos (by omega)]
      · rw [if_neg hm, if_neg (by omega)]

theorem slot_eq_shift (p d : Nat) : p >>> (6 * d) / 64 = p >>> (6 * d + 6) := by
  rw [shiftr_div, shiftr_div, ← div_pow_div_pow]
  norm_num

theorem wordAt_setLayers (L : List Layer) (p d j : Nat) :
    wordAt (setLayers L p) d j =
      if d < L.length ∧ j = p >>> (6 * d + 6) ∧ j < (L.getD d []).length then
        wordAt L d j ||| 1 <<< (p >>> (6 * d) % 64)
      else wordAt L d j := by
  unfold wordAt
  rw [setLayers_getD]
  by_cases hd : d < L.length
  · rw [if_pos hd]
    unfold Layer.set
    rw [slot_eq_shift]
    by_cases hj : j = p >>> (6 * d + 6)
    · subst hj
      by_cases hlen : p >>> (6 * d + 6) < (L.getD d []).length
      · rw [getD_set_self _ _ _ _ hlen, if_pos ⟨hd, rfl, hlen⟩]
      · rw [List.set_eq_of_length_le (le_of_not_lt hlen),
          if_neg (fun hcon => hlen hcon.2.2)]
    · rw [getD_set_ne _ _ _ (fun hc => hj hc.symm),
        if_neg (fun hcon => hj hcon.2.1)]
  · rw [if_neg hd, if_neg (fun hcon => hd hcon.1),
      List.getD_eq_default _ _ (le_of_not_lt hd)]

theorem wordAt_clearLayers (L : List Layer) (p d j : Nat) :
    wordAt (clearLayers L p) d j =
      if d < L.length ∧ j = p >>> (6 * d + 6) ∧ j < (L.getD d []).length then
        wordAt L d j &&& (USIZE_MAX ^^^ 1 <<< (p >>> (6 * d) % 64))
      else wordAt L d j := by
  unfold wordAt
  rw [clearLayers_getD]
  by_cases hd : d < L.length
  · rw [if_pos hd]
    unfold Layer.clear
    rw [slot_eq_shift]
    by_cases hj : j = p >>> (6 * d + 6)
    · subst hj
      by_cases hlen : p >>> (6 * d + 6) < (L.getD d []).length
      · rw [getD_set_self _ _ _ _ hlen, if_pos ⟨hd, rfl, hlen⟩]
      · rw [List.set_eq_of_length_le (le_of_not_lt hlen),
          if_neg (fun hcon => hlen hcon.2.2)]
    · rw [getD_set_ne _ _ _ (fun hc => hj hc.symm),
        if_neg (fun hcon => hj hcon.2.1)]
  · rw [if_neg hd, if_neg (fun hcon => hd hcon.1),
      List.getD_eq_default _ _ (le_of_not_lt hd)]

theorem setLayers_row_length (L : List Layer) (p d : Nat) :
    ((setLayers L p).getD d []).length = ((L.getD d []).length) := by
  rw [setLayers_getD]
  by_cases hd : d < L.length
  · rw [if_pos hd]
    unfold Layer.set
    rw [List.length_set]
  · rw [if_neg hd, List.getD_eq_default _ _ (le_of_not_lt hd)]

theorem clearLayers_row_length (L : List Layer) (p d : Nat) :
    ((clearLayers L p).getD d []).length = ((L.getD d []).length) := by
  rw [clearLayers_getD]
  by_cases hd : d < L.length
  · rw [if_pos hd]
    unfold Layer.clear
    rw [List.length_set]
  · rw [if_neg hd, List.getD_eq_default _ _ (le_of_not_lt hd)]

theorem testBit_and_mask_lt (w k j : Nat) (hj : j < 64) :
    (w &&& (USIZE_MAX ^^^ 1 <<< k)).testBit j = (w.testBit j && decide (j ≠ k)) := by
  rw [Nat.one_shiftLeft, Nat.testBit_and, Nat.testBit_xor]
  rw [show USIZE_MAX = 2 ^ 64 - 1 from rfl, Nat.testBit_two_pow_sub_one]
  by_cases h : j = k
  · subst h; simp [Nat.testBit_two_pow_self, hj]
  · simp [hj, h, Nat.testBit_two_pow_of_ne (Ne.symm h)]

theorem test_eq_wordAt (b : BitSet) (p : Nat) :
    b.test p = (wordAt b.layers 0 (p / 64)).testBit (p % 64) := by
  show Layer.test (b.layers.getD 0 []) (p / BITS) (p % BITS) = _
  rw [Layer.test_eq_testBit]
  rfl

/-- C4: for any position below the capacity whose layer-0 word is allocated
(the condition under which the source's indexing does not panic), `set p`
makes `test p` true, and a subsequent `clear p` makes it false again. -/
theorem claim_C4 (b : BitSet) (p : Nat) (hcap : p < b.cap)
    (hlen : p / 64 < (b.layers.getD 0 []).length) :
    (b.set p).test p = true ∧ ((b.set p).clear p).test p = false := by
  have hL0 : 0 < b.layers.length := by
    by_contra hc
    have : b.layers = [] := List.length_eq_zero.mp (by omega)
    rw [this] at hlen
    simp at hlen
  have hslot : p / 64 = p >>> (6 * 0 + 6) := by
    rw [shiftr_div]
    norm_num
  have hmod64 : p % 64 < 64 := Nat.mod_lt p (by norm_num)
  constructor
  · rw [test_eq_wordAt]
    show (wordAt (setLayers b.layers p) 0 (p / 64)).testBit (p % 64) = true
    rw [hslot, wordAt_setLayers,
      if_pos ⟨hL0, rfl, by rw [← hslot]; exact hlen⟩]
    rw [show p >>> (6 * 0) = p by rw [show 6 * 0 = 0 by ring, Nat.shiftRight_zero]]
    rw [testBit_or_pow]
    simp
  · rw [test_eq_wordAt]
    show (wordAt (clearLayers (setLayers b.layers p) p) 0 (p / 64)).testBit (p % 64) = false
    have hlen2 : p >>> (6 * 0 + 6) < ((setLayers b.layers p).getD 0 []).length := by
      rw [setLayers_row_length, ← hslot]
      exact hlen
    have hL02 : 0 < (setLayers b.layers p).length := by
      rw [setLayers_length]; exact hL0
    rw [hslot, wordAt_clearLayers, if_pos ⟨hL02, rfl, hlen2⟩]
    rw [show p >>> (6 * 0) = p by rw [show 6 * 0 = 0 by ring, Nat.shiftRight_zero]]
    rw [testBit_and_mask_lt _ _ _ hmod64]
    simp

theorem claim_C4_witness :
    (3 : Nat) < (BitSet.with_capacity 64).cap ∧
      ((BitSet.with_capacity 64).set 3).test 3 = true ∧
      (((BitSet.with_capacity 64).set 3).clear 3).test 3 = false := by
  refine ⟨by decide, ?_⟩
  exact claim_C4 (BitSet.with_capacity 64) 3 (by decide) (by decide)

/-- C3: positions 0 and 1 (capacity 128) are distinct, share layer-0 word 0
and hence the layer-1 summary bit; after `set 0`, `set 1`, `clear 0` the
shared summary bit is zero although `test 1` still holds, and a subsequent
`drain()` yields nothing at all, skipping the genuinely-set position 1. -/
theorem claim_C3 :
    (0 : Nat) ≠ 1 ∧ (0 : Nat) / 64 = 1 / 64 ∧
      (1 : Nat) < ((((BitSet.with_capacity 128).set 0).set 1).clear 0).cap ∧
      ((((BitSet.with_capacity 128).set 0).set 1).clear 0).test 1 = true ∧
      wordAt ((((BitSet.with_capacity 128).set 0).set 1).clear 0).layers 1 0 = 0 ∧
      wordAt ((((BitSet.with_capacity 128).set 0).set 1).clear 0).layers 0 0 ≠ 0 ∧
      ((((BitSet.with_capacity 128).set 0).set 1).clear 0).drainAll.1 = [] ∧
      (1 : Nat) ∉ ((((BitSet.with_capacity 128).set 0).set 1).clear 0).drainAll.1 := by
  decide

/-- C5: the four documented values of `round_capacity_up`; every usize result
is 0 or a power of two at least 16; and the function is idempotent on usize
inputs. -/
theorem claim_C5 :
    round_capacity_up 0 = 0 ∧ round_capacity_up 1 = 16 ∧ round_capacity_up 17 = 32 ∧
      round_capacity_up 32 = 32 ∧
      (∀ x, x < 2 ^ 64 →
        round_capacity_up x = 0 ∨
          ∃ k, round_capacity_up x = 2 ^ k ∧ 16 ≤ round_capacity_up x) ∧
      (∀ x, x < 2 ^ 64 → round_capacity_up (round_capacity_up x) = round_capacity_up x) := by
  refine ⟨by decide, by decide, by decide, by decide, ?_, ?_⟩
  · intro x hx
    by_cases h0 : x = 0
    · left; subst h0; rfl
    · right
      obtain ⟨k, h4, h63, hk⟩ := rcu_shape x hx h0
      refine ⟨k, hk, ?_⟩
      rw [hk]
      calc (16 : Nat) = 2 ^ 4 := by norm_num
        _ ≤ 2 ^ k := Nat.pow_le_pow_right (by norm_num) h4
  · exact rcu_idem

theorem claim_C5_witness :
    (round_capacity_up 37 = 0 ∨
      ∃ k, round_capacity_up 37 = 2 ^ k ∧ 16 ≤ round_capacity_up 37) ∧
      round_capacity_up (round_capacity_up 37) = round_capacity_up 37 :=
  ⟨claim_C5.2.2.2.2.1 37 (by decide), claim_C5.2.2.2.2.2 37 (by decide)⟩

/-- C7 (code bug): on a set of capacity 1024, `reserve(2^63 + 1)` overflows
the rounding shift (`1 << 64`, masked to `1` in release builds; debug builds
panic) so the capacity is set to 16, a decrease; the source's dead
`leading == 64` guard shows the overflow was meant to be caught. -/
theorem claim_C7_bug :
    (BitSet.with_capacity 1024).cap = 1024 ∧
      ((BitSet.with_capacity 1024).reserve (2 ^ 63 + 1)).cap = 16 ∧
      ((BitSet.with_capacity 1024).reserve (2 ^ 63 + 1)).cap <
        (BitSet.with_capacity 1024).cap := by
  decide

/-- C8: converting Local to Shared and back (or Shared to Local and back)
yields exactly the same structure: same capacity, and the same value for
every word of every layer. -/
theorem claim_C8 (b : BitSet) (a : AtomicBitSet) :
    b.into_atomic.into_local = b ∧ a.into_local.into_atomic = a ∧
      b.into_atomic.into_local.cap = b.cap ∧
      (∀ d j, wordAt b.into_atomic.into_local.layers d j = wordAt b.layers d j) ∧
      a.into_local.into_atomic.cap = a.cap ∧
      (∀ d j, wordAt a.into_local.into_atomic.layers d j = wordAt a.layers d j) :=
  ⟨rfl, rfl, rfl, fun _ _ => rfl, rfl, fun _ _ => rfl⟩

/-- C6: `reserve n` with `n` at most the capacity is the identity; with
`n` above the capacity it sets the capacity to `round_capacity_up n` and
preserves `test p` whenever both reads are within their capacity assertions
(`p < self.cap` is asserted by `test` before and after the reserve; for an
`n` whose rounding wraps, the second assert can fail and the source panics
instead of returning, see C7). -/
theorem claim_C6 (b : BitSet) (n : Nat) :
    (n ≤ b.cap → b.reserve n = b) ∧
      (b.cap < n → (b.reserve n).cap = round_capacity_up n ∧
        ∀ p, p < b.cap → p < (b.reserve n).cap → (b.reserve n).test p = b.test p) := by
  constructor
  · intro h
    unfold BitSet.reserve
    rw [if_pos h]
  · intro h
    refine ⟨?_, ?_⟩
    · unfold BitSet.reserve
      rw [if_neg (by omega)]
    · intro p _ _
      unfold BitSet.reserve
      rw [if_neg (by omega)]
      rw [test_eq_wordAt, test_eq_wordAt]
      show (wordAt (growLayers b.layers _) 0 (p / 64)).testBit (p % 64) = _
      rw [growLayers_wordAt]

theorem claim_C6_witness :
    (BitSet.with_capacity 64).cap < 200 ∧ (3 : Nat) < (BitSet.with_capacity 64).cap ∧
      (3 : Nat) < ((BitSet.with_capacity 64).reserve 200).cap ∧
      ((BitSet.with_capacity 64).reserve 200).cap = round_capacity_up 200 ∧
      ((BitSet.with_capacity 64).reserve 200).test 3 = (BitSet.with_capacity 64).test 3 ∧
      (300 : Nat) ≤ (BitSet.with_capacity 1024).cap ∧
      (BitSet.with_capacity 1024).reserve 300 = BitSet.with_capacity 1024 :=
  ⟨by decide, by decide, by decide, ((claim_C6 _ 200).2 (by decide)).1,
    ((claim_C6 _ 200).2 (by decide)).2 3 (by decide) (by decide),
    by decide, (claim_C6 _ 300).1 (by decide)⟩

/-! ### Drain: step equations and normalization -/

theorem BITS_shift_eq (d : Nat) : BITS <<< (d * BITS_SHIFT) = 2 ^ (6 * d + 6) := by
  show (64 : Nat) <<< (d * 6) = 2 ^ (6 * d + 6)
  rw [shift64]
  congr 1
  ring

theorem mod_BITS_shift_eq (x d : Nat) : (x >>> (d * BITS_SHIFT)) % BITS = x / 2 ^ (6 * d) % 64 := by
  show (x >>> (d * 6)) % 64 = x / 2 ^ (6 * d) % 64
  rw [shiftr_div, show d * 6 = 6 * d by ring]

theorem tz_shift_eq (t d : Nat) : t <<< (d * BITS_SHIFT) = t * 2 ^ (6 * d) := by
  show t <<< (d * 6) = t * 2 ^ (6 * d)
  rw [Nat.shiftLeft_eq, show d * 6 = 6 * d by ring]

theorem drainAscend_zero_eq (i idx depth : Nat) (layers : List Layer) :
    drainAscend i idx 0 depth layers = (layers, none) := rfl

theorem drainAscend_succ_eq (i idx fuel depth : Nat) (layers : List Layer) :
    drainAscend i idx (fuel + 1) depth layers =
      if depth < layers.length then
        if wordAt layers depth (i / (BITS <<< (depth * BITS_SHIFT))) &&&
            (USIZE_MAX ^^^ 1 <<< ((idx >>> (depth * BITS_SHIFT)) % BITS)) == 0 then
          drainAscend i idx fuel (depth + 1)
            (setWordAt layers depth (i / (BITS <<< (depth * BITS_SHIFT)))
              (wordAt layers depth (i / (BITS <<< (depth * BITS_SHIFT))) &&&
                (USIZE_MAX ^^^ 1 <<< ((idx >>> (depth * BITS_SHIFT)) % BITS))))
        else
          (setWordAt layers depth (i / (BITS <<< (depth * BITS_SHIFT)))
              (wordAt layers depth (i / (BITS <<< (depth * BITS_SHIFT))) &&&
                (USIZE_MAX ^^^ 1 <<< ((idx >>> (depth * BITS_SHIFT)) % BITS))),
            some (depth,
              i / (BITS <<< (depth * BITS_SHIFT)) * (BITS <<< (depth * BITS_SHIFT)) +
                trailing_zeros
                  (wordAt layers depth (i / (BITS <<< (depth * BITS_SHIFT))) &&&
                    (USIZE_MAX ^^^ 1 <<< ((idx >>> (depth * BITS_SHIFT)) % BITS))) <<<
                  (depth * BITS_SHIFT)))
      else (layers, none) := rfl

theorem drainNextGo_zero_eq (s : DrainState) : drainNextGo 0 s = none := rfl

theorem drainNextGo_succ_eq (fuel : Nat) (s : DrainState) :
    drainNextGo (fuel + 1) s =
      if s.depth < s.layers.length then
        if wordAt s.layers s.depth (s.index / (BITS <<< (s.depth * BITS_SHIFT))) == 0 then
          drainNextGo fuel ⟨s.layers, s.index, s.depth + 1⟩
        else if 0 < s.depth then
          drainNextGo fuel ⟨s.layers,
            s.index / (BITS <<< (s.depth * BITS_SHIFT)) * (BITS <<< (s.depth * BITS_SHIFT)) +
              trailing_zeros
                (wordAt s.layers s.depth (s.index / (BITS <<< (s.depth * BITS_SHIFT)))) <<<
                (s.depth * BITS_SHIFT),
            s.depth - 1⟩
        else
          if wordAt s.layers s.depth (s.index / (BITS <<< (s.depth * BITS_SHIFT))) &&&
              (USIZE_MAX ^^^
                1 <<< trailing_zeros
                  (wordAt s.layers s.depth (s.index / (BITS <<< (s.depth * BITS_SHIFT))))) == 0 then
            match drainAscend s.index
                (s.index + trailing_zeros
                  (wordAt s.layers s.depth (s.index / (BITS <<< (s.depth * BITS_SHIFT)))))
                (setWordAt s.layers 0 (s.index / (BITS <<< (s.depth * BITS_SHIFT)))
                  (wordAt s.layers s.depth (s.index / (BITS <<< (s.depth * BITS_SHIFT))) &&&
                    (USIZE_MAX ^^^
                      1 <<< trailing_zeros
                        (wordAt s.layers s.depth
                          (s.index / (BITS <<< (s.depth * BITS_SHIFT))))))).length 1
                (setWordAt s.layers 0 (s.index / (BITS <<< (s.depth * BITS_SHIFT)))
                  (wordAt s.layers s.depth (s.index / (BITS <<< (s.depth * BITS_SHIFT))) &&&
                    (USIZE_MAX ^^^
                      1 <<< trailing_zeros
                        (wordAt s.layers s.depth
                          (s.index / (BITS <<< (s.depth * BITS_SHIFT))))))) with
            | (layers2, some di) =>
              some (some (s.index + trailing_zeros
                (wordAt s.layers s.depth (s.index / (BITS <<< (s.depth * BITS_SHIFT))))),
                ⟨layers2, di.2, di.1⟩)
            | (layers2, none) =>
              some (some (s.index + trailing_zeros
                (wordAt s.layers s.depth (s.index / (BITS <<< (s.depth * BITS_SHIFT))))),
                ⟨layers2, s.index, layers2.length⟩)
          else
            some (some (s.index + trailing_zeros
              (wordAt s.layers s.depth (s.index / (BITS <<< (s.depth * BITS_SHIFT))))),
              ⟨setWordAt s.layers 0 (s.index / (BITS <<< (s.depth * BITS_SHIFT)))
                (wordAt s.layers s.depth (s.index / (BITS <<< (s.depth * BITS_SHIFT))) &&&
                  (USIZE_MAX ^^^
                    1 <<< trailing_zeros
                      (wordAt s.layers s.depth (s.index / (BITS <<< (s.depth * BITS_SHIFT)))))),
                s.index, s.depth⟩)
      else some (none, s) := rfl

/-! ### Structural consequences of the invariants -/

theorem lt_length_of_wordAt_ne {L : List Layer} {d j : Nat} (h : wordAt L d j ≠ 0) :
    d < L.length ∧ j < (L.getD d []).length := by
  constructor
  · by_contra hc
    exact h (wordAt_oob L j (le_of_not_lt hc))
  · by_contra hc
    exact h (List.getD_eq_default _ _ (le_of_not_lt hc))

theorem add_small_div (i t m : Nat) (h64 : 64 ∣ i) (ht : t < 64) (hm : 64 ∣ m) :
    (i + t) / m = i / m := by
  rcases Nat.eq_zero_or_pos m with hm0 | hm0
  · simp [hm0]
  · have hdm : 64 ∣ i % m := (Nat.dvd_mod_iff hm).mpr h64
    obtain ⟨u, hu⟩ := hdm
    obtain ⟨v, hv⟩ := hm
    have hlt : i % m < m := Nat.mod_lt i hm0
    have hkey : i % m + t < m := by omega
    conv_lhs => rw [← Nat.div_add_mod i m]
    rw [Nat.add_assoc, Nat.mul_add_div hm0, Nat.div_eq_of_lt hkey, Nat.add_zero]

/-- Under the exact invariant, a clear summary bit on the path to `p` means
`p` is not set. -/
theorem noElem_of_zero {L : List Layer} (hsum : sumOk L) :
    ∀ d p, d < L.length →
      (wordAt L d (p / 2 ^ (6 * d + 6))).testBit (p / 2 ^ (6 * d) % 64) = false →
      ¬ elem L p := by
  intro d
  induction d with
  | zero =>
    intro p _ hbit hel
    unfold elem at hel
    rw [show p / 2 ^ (6 * 0) % 64 = p % 64 by norm_num] at hbit
    rw [show p / 2 ^ (6 * 0 + 6) = p / 64 by norm_num] at hbit
    rw [hel] at hbit
    exact Bool.noConfusion hbit
  | succ d ih =>
    intro p hd hbit
    have hword : wordAt L d (p / 2 ^ (6 * d + 6)) = 0 := by
      by_contra hne
      have := (hsum d (p / 2 ^ (6 * d + 6)) hd).mpr hne
      have hj1 : p / 2 ^ (6 * d + 6) / 64 = p / 2 ^ (6 * (d + 1) + 6) := by
        rw [show (64 : Nat) = 2 ^ 6 by norm_num, div_pow_div_pow,
          show 6 * d + 6 + 6 = 6 * (d + 1) + 6 by ring]
      have hj2 : p / 2 ^ (6 * d + 6) % 64 = p / 2 ^ (6 * (d + 1)) % 64 := by
        rw [show 6 * (d + 1) = 6 * d + 6 by ring]
      rw [hj1, hj2] at this
      rw [this] at hbit
      exact Bool.noConfusion hbit
    intro hel
    refine ih p (by omega) ?_ hel
    rw [hword, Nat.zero_testBit]

/-- Under the exact invariant a nonzero word anywhere has a set position
below it. -/
theorem exists_elem_of_word {L : List Layer} (hsum : sumOk L) (hwlt : wordsLt L) :
    ∀ d j, d < L.length → wordAt L d j ≠ 0 → ∃ p, elem L p := by
  intro d
  induction d with
  | zero =>
    intro j _ hne
    have htz := trailing_zeros_spec _ hne (hwlt 0 j)
    refine ⟨64 * j + trailing_zeros (wordAt L 0 j), ?_⟩
    unfold elem
    have htzlt : trailing_zeros (wordAt L 0 j) < 64 := trailing_zeros_lt _ hne (hwlt 0 j)
    rw [show (64 * j + trailing_zeros (wordAt L 0 j)) / 64 = j by omega]
    rw [show (64 * j + trailing_zeros (wordAt L 0 j)) % 64 = trailing_zeros (wordAt L 0 j) by omega]
    exact htz.1
  | succ d ih =>
    intro j hd hne
    have htz := trailing_zeros_spec _ hne (hwlt (d + 1) j)
    have htzlt : trailing_zeros (wordAt L (d + 1) j) < 64 :=
      trailing_zeros_lt _ hne (hwlt (d + 1) j)
    have hchild := (hsum d (64 * j + trailing_zeros (wordAt L (d + 1) j)) hd).mp ?_
    · exact ih _ (by omega) hchild
    · rw [show (64 * j + trailing_zeros (wordAt L (d + 1) j)) / 64 = j by omega]
      rw [show (64 * j + trailing_zeros (wordAt L (d + 1) j)) % 64
            = trailing_zeros (wordAt L (d + 1) j) by omega]
      exact htz.1

/-- If the whole top layer is zero, the exact invariant forces every layer to
be zero. -/
theorem allZero_of_top_zero {L : List Layer} (hsum : sumOk L) (hspare : spareTop L)
    (htop : wordAt L (L.length - 1) 0 = 0) : ∀ d j, wordAt L d j = 0 := by
  intro d j
  by_cases hd : d < L.length
  · by_contra hne
    -- climb to the top: by downward induction the layers above d are zero
    -- at the parent of a nonzero word, contradicting sumOk.
    -- We show by induction on k that layer (L.length - 1 - k) is all zero.
    have htopall : ∀ j2, wordAt L (L.length - 1) j2 = 0 := by
      intro j2
      cases j2 with
      | zero => exact htop
      | succ m => exact hspare (m + 1) (by omega)
    have hzero : ∀ k, ∀ j2, wordAt L (L.length - 1 - k) j2 = 0 := by
      intro k
      induction k with
      | zero => exact htopall
      | succ m ih =>
        intro j2
        by_cases hm : m + 1 ≤ L.length - 1
        · by_contra hne2
          have hdd : L.length - 1 - (m + 1) + 1 < L.length := by omega
          have := (hsum (L.length - 1 - (m + 1)) j2 hdd).mpr hne2
          have hup : L.length - 1 - (m + 1) + 1 = L.length - 1 - m := by omega
          rw [hup] at this
          rw [ih (j2 / 64)] at this
          rw [Nat.zero_testBit] at this
          exact Bool.false_ne_true this
        · have : L.length - 1 - (m + 1) = L.length - 1 - m := by omega
          rw [this]
          exact ih j2
    have := hzero (L.length - 1 - d) j
    rw [show L.length - 1 - (L.length - 1 - d) = d by omega] at this
    exact hne this
  · exact wordAt_oob L j (le_of_not_lt hd)

theorem noElem_of_allZero {L : List Layer} (h : ∀ d j, wordAt L d j = 0) :
    ∀ p, ¬ elem L p := by
  intro p hel
  unfold elem at hel
  rw [h 0 (p / 64), Nat.zero_testBit] at hel
  exact Bool.false_ne_true hel

theorem div64_pow (i e : Nat) : i / 2 ^ (6 * e) / 64 = i / 2 ^ (6 * e + 6) := by
  rw [show (64 : Nat) = 2 ^ 6 by norm_num, div_pow_div_pow]

theorem mul_add_div_small (a m r : Nat) (hm : 0 < m) (hr : r < m) : (a * m + r) / m = a := by
  rw [Nat.add_comm, Nat.add_mul_div_right _ _ hm, Nat.div_eq_of_lt hr, Nat.zero_add]

theorem wordAt_setWordAt_oob_inner (L : List Layer) (d o w j : Nat)
    (ho : (L.getD d []).length ≤ o) : wordAt (setWordAt L d o w) d j = wordAt L d j := by
  unfold wordAt setWordAt
  rw [List.set_eq_of_length_le ho]
  by_cases hd : d < L.length
  · rw [getD_set_self _ _ _ _ hd]
  · rw [List.set_eq_of_length_le (le_of_not_lt hd)]

theorem wordAt_setWordAt (L : List Layer) (d o w : Nat) (hd : d < L.length) :
    wordAt (setWordAt L d o w) d o = if o < (L.getD d []).length then w else wordAt L d o := by
  by_cases ho : o < (L.getD d []).length
  · rw [if_pos ho, wordAt_setWordAt_self _ _ _ _ hd ho]
  · rw [if_neg ho, wordAt_setWordAt_oob_inner _ _ _ _ _ (le_of_not_lt ho)]

theorem wordAt_setWordAt_le (L : List Layer) (d o w : Nat) (hw : w ≤ wordAt L d o) :
    ∀ e j, wordAt (setWordAt L d o w) e j ≤ wordAt L e j := by
  intro e j
  by_cases hc : d = e ∧ o = j
  · obtain ⟨h1, h2⟩ := hc
    subst h1
    subst h2
    by_cases hd : d < L.length
    · rw [wordAt_setWordAt _ _ _ _ hd]
      by_cases ho : o < (L.getD d []).length
      · rw [if_pos ho]; exact hw
      · rw [if_neg ho]
    · unfold setWordAt
      rw [List.set_eq_of_length_le (le_of_not_lt hd)]
  · rw [wordAt_setWordAt_ne _ _ hc]

theorem elem_setWordAt_deep (L : List Layer) (e o w : Nat) (he : 1 ≤ e) (p : Nat) :
    elem (setWordAt L e o w) p ↔ elem L p := by
  unfold elem
  rw [wordAt_setWordAt_ne _ _ (fun hc => by omega)]

theorem drainAscend_step (i q e fuel : Nat) (M : List Layer)
    (hlt : e < M.length) (hal : i % 64 = 0) (hiq : i ≤ q) (hq64 : q < i + 64) (he : 1 ≤ e) :
    drainAscend i q (fuel + 1) e M =
      (if wordAt M e (i / 2 ^ (6 * e + 6)) &&&
          (USIZE_MAX ^^^ 1 <<< (i / 2 ^ (6 * e) % 64)) = 0 then
        drainAscend i q fuel (e + 1)
          (setWordAt M e (i / 2 ^ (6 * e + 6))
            (wordAt M e (i / 2 ^ (6 * e + 6)) &&&
              (USIZE_MAX ^^^ 1 <<< (i / 2 ^ (6 * e) % 64))))
      else
        (setWordAt M e (i / 2 ^ (6 * e + 6))
            (wordAt M e (i / 2 ^ (6 * e + 6)) &&&
              (USIZE_MAX ^^^ 1 <<< (i / 2 ^ (6 * e) % 64))),
          some (e, i / 2 ^ (6 * e + 6) * 2 ^ (6 * e + 6) +
            trailing_zeros
              (wordAt M e (i / 2 ^ (6 * e + 6)) &&&
                (USIZE_MAX ^^^ 1 <<< (i / 2 ^ (6 * e) % 64))) * 2 ^ (6 * e)))) := by
  have hqi : q / 2 ^ (6 * e) = i / 2 ^ (6 * e) := by
    rw [show q = i + (q - i) by omega]
    refine add_small_div i (q - i) _ (Nat.dvd_of_mod_eq_zero hal) (by omega) ?_
    rw [show (64 : Nat) = 2 ^ 6 by norm_num]
    exact pow_dvd_pow 2 (by omega)
  rw [drainAscend_succ_eq, if_pos hlt, BITS_shift_eq, mod_BITS_shift_eq, tz_shift_eq, hqi]
  by_cases hz : wordAt M e (i / 2 ^ (6 * e + 6)) &&&
      (USIZE_MAX ^^^ 1 <<< (i / 2 ^ (6 * e) % 64)) = 0
  · rw [if_pos (by simp [hz]), if_pos hz]
  · rw [if_neg (by simp [hz]), if_neg hz]

theorem ascend_exit (M : List Layer) (i e : Nat)
    (hspare : spareTop M) (hib : i < 2 ^ (6 * M.length))
    (hpath : ∀ f, f < e → wordAt M f (i / 2 ^ (6 * f + 6)) = 0)
    (hsumE : ∀ d j, d + 1 < M.length → ¬(d + 1 = e ∧ j = i / 2 ^ (6 * d + 6)) →
      (Nat.testBit (wordAt M (d + 1) (j / 64)) (j % 64) = true ↔ wordAt M d j ≠ 0))
    (hge : M.length ≤ e) :
    sumOk M ∧ ∀ f j, wordAt M f j = 0 := by
  have hsum : sumOk M := fun d j hd => hsumE d j hd (fun hc => by omega)
  refine ⟨hsum, ?_⟩
  rcases Nat.eq_zero_or_pos M.length with h0 | h0
  · intro f j
    exact wordAt_oob M j (by omega)
  · have hslot : i / 2 ^ (6 * (M.length - 1) + 6) = 0 := by
      apply Nat.div_eq_of_lt
      calc i < 2 ^ (6 * M.length) := hib
        _ ≤ 2 ^ (6 * (M.length - 1) + 6) := Nat.pow_le_pow_right (by norm_num) (by omega)
    have htop : wordAt M (M.length - 1) 0 = 0 := by
      have := hpath (M.length - 1) (by omega)
      rw [hslot] at this
      exact this
    exact allZero_of_top_zero hsum hspare htop

theorem ascend_spec : ∀ fuel e (M : List Layer) (i q : Nat),
    wordsLt M → spareTop M → 1 ≤ e → i % 64 = 0 → i ≤ q → q < i + 64 →
    i < 2 ^ (6 * M.length) →
    (∀ f, f < e → wordAt M f (i / 2 ^ (6 * f + 6)) = 0) →
    (∀ d j, d + 1 < M.length → ¬(d + 1 = e ∧ j = i / 2 ^ (6 * d + 6)) →
      (Nat.testBit (wordAt M (d + 1) (j / 64)) (j % 64) = true ↔ wordAt M d j ≠ 0)) →
    M.length ≤ fuel + e →
    ∃ M2 r, drainAscend i q fuel e M = (M2, r) ∧ AscendPost M i M2 r e := by
  intro fuel
  induction fuel with
  | zero =>
    intro e M i q hwlt hspare he hal hiq hq64 hib hpath hsumE hfuel
    obtain ⟨hsum, hzero⟩ := ascend_exit M i e hspare hib hpath hsumE (by omega)
    exact ⟨M, none, drainAscend_zero_eq i q e M,
      rfl, fun f => rfl, fun f j => le_refl _, fun j => rfl, hsum, hzero⟩
  | succ fuel ih =>
    intro e M i q hwlt hspare he hal hiq hq64 hib hpath hsumE hfuel
    by_cases hlt : e < M.length
    · -- the loop body runs at depth e
      have hstep := drainAscend_step i q e fuel M hlt hal hiq hq64 he
      -- abbreviations (stated as facts about the fixed expressions)
      have hOdef : i / 2 ^ (6 * e) / 64 = i / 2 ^ (6 * e + 6) := div64_pow i e
      have hWolt : wordAt M e (i / 2 ^ (6 * e + 6)) < 2 ^ 64 := hwlt e _
      have hW1le : wordAt M e (i / 2 ^ (6 * e + 6)) &&&
          (USIZE_MAX ^^^ 1 <<< (i / 2 ^ (6 * e) % 64)) ≤ wordAt M e (i / 2 ^ (6 * e + 6)) :=
        Nat.and_le_left
      have hM1le : ∀ f j,
          wordAt (setWordAt M e (i / 2 ^ (6 * e + 6))
            (wordAt M e (i / 2 ^ (6 * e + 6)) &&&
              (USIZE_MAX ^^^ 1 <<< (i / 2 ^ (6 * e) % 64)))) f j ≤ wordAt M f j :=
        wordAt_setWordAt_le M e _ _ hW1le
      have hM1len : (setWordAt M e (i / 2 ^ (6 * e + 6))
          (wordAt M e (i / 2 ^ (6 * e + 6)) &&&
            (USIZE_MAX ^^^ 1 <<< (i / 2 ^ (6 * e) % 64)))).length = M.length :=
        length_setWordAt M e _ _
      have hM1row : ∀ f, ((setWordAt M e (i / 2 ^ (6 * e + 6))
          (wordAt M e (i / 2 ^ (6 * e + 6)) &&&
            (USIZE_MAX ^^^ 1 <<< (i / 2 ^ (6 * e) % 64)))).getD f []).length =
          (M.getD f []).length :=
        fun f => row_length_setWordAt M e _ _ f
      have hM1O : wordAt (setWordAt M e (i / 2 ^ (6 * e + 6))
          (wordAt M e (i / 2 ^ (6 * e + 6)) &&&
            (USIZE_MAX ^^^ 1 <<< (i / 2 ^ (6 * e) % 64)))) e (i / 2 ^ (6 * e + 6)) =
          wordAt M e (i / 2 ^ (6 * e + 6)) &&&
            (USIZE_MAX ^^^ 1 <<< (i / 2 ^ (6 * e) % 64)) := by
        rw [wordAt_setWordAt M e _ _ hlt]
        by_cases hin : i / 2 ^ (6 * e + 6) < (M.getD e []).length
        · rw [if_pos hin]
        · rw [if_neg hin]
          have h0 : wordAt M e (i / 2 ^ (6 * e + 6)) = 0 :=
            List.getD_eq_default _ _ (le_of_not_lt hin)
          rw [h0, Nat.zero_and]
      have hM1ne : ∀ f j, ¬(f = e ∧ j = i / 2 ^ (6 * e + 6)) →
          wordAt (setWordAt M e (i / 2 ^ (6 * e + 6))
            (wordAt M e (i / 2 ^ (6 * e + 6)) &&&
              (USIZE_MAX ^^^ 1 <<< (i / 2 ^ (6 * e) % 64)))) f j = wordAt M f j := by
        intro f j hc
        exact wordAt_setWordAt_ne M _ (fun hcc => hc ⟨hcc.1.symm, hcc.2.symm⟩)
      have hM1wlt : wordsLt (setWordAt M e (i / 2 ^ (6 * e + 6))
          (wordAt M e (i / 2 ^ (6 * e + 6)) &&&
            (USIZE_MAX ^^^ 1 <<< (i / 2 ^ (6 * e) % 64)))) :=
        fun d j => lt_of_le_of_lt (hM1le d j) (hwlt d j)
      have hM1spare : spareTop (setWordAt M e (i / 2 ^ (6 * e + 6))
          (wordAt M e (i / 2 ^ (6 * e + 6)) &&&
            (USIZE_MAX ^^^ 1 <<< (i / 2 ^ (6 * e) % 64)))) := by
        intro j hj
        rw [hM1len]
        have := hM1le (M.length - 1) j
        have h2 := hspare j hj
        omega
      -- the restored/updated summary equivalences after the masked write
      have hsum1 : ∀ d j, d + 1 < M.length → ¬(d + 1 = e + 1 ∧ j = i / 2 ^ (6 * d + 6)) →
          (Nat.testBit (wordAt (setWordAt M e (i / 2 ^ (6 * e + 6))
              (wordAt M e (i / 2 ^ (6 * e + 6)) &&&
                (USIZE_MAX ^^^ 1 <<< (i / 2 ^ (6 * e) % 64)))) (d + 1) (j / 64)) (j % 64) = true ↔
            wordAt (setWordAt M e (i / 2 ^ (6 * e + 6))
              (wordAt M e (i / 2 ^ (6 * e + 6)) &&&
                (USIZE_MAX ^^^ 1 <<< (i / 2 ^ (6 * e) % 64)))) d j ≠ 0) := by
        intro d j hd hnexc
        by_cases hde : d + 1 = e
        · -- parent is the rewritten layer e, child is the zeroed path layer d
          have hdlt : d < e := by omega
          have hchild : wordAt (setWordAt M e (i / 2 ^ (6 * e + 6))
              (wordAt M e (i / 2 ^ (6 * e + 6)) &&&
                (USIZE_MAX ^^^ 1 <<< (i / 2 ^ (6 * e) % 64)))) d j = wordAt M d j :=
            hM1ne d j (fun hcc => by omega)
          by_cases hj64 : j / 64 = i / 2 ^ (6 * e + 6)
          · have hparent : wordAt (setWordAt M e (i / 2 ^ (6 * e + 6))
                (wordAt M e (i / 2 ^ (6 * e + 6)) &&&
                  (USIZE_MAX ^^^ 1 <<< (i / 2 ^ (6 * e) % 64)))) (d + 1) (j / 64) =
                wordAt M e (i / 2 ^ (6 * e + 6)) &&&
                  (USIZE_MAX ^^^ 1 <<< (i / 2 ^ (6 * e) % 64)) := by
              rw [hde, hj64]
              exact hM1O
            rw [hparent, hchild, testBit_and_mask _ _ _ hWolt
              (Nat.mod_lt _ (by norm_num))]
            by_cases hjK : j % 64 = i / 2 ^ (6 * e) % 64
            · -- this is exactly the restored summary bit of the zeroed path word
              have hjval : j = i / 2 ^ (6 * e) := by omega
              have hzero : wordAt M d j = 0 := by
                have := hpath d hdlt
                rw [show 6 * d + 6 = 6 * e by omega] at this
                rw [hjval]
                exact this
              rw [hjK, hzero]
              simp
            · have hnotold : ¬(d + 1 = e ∧ j = i / 2 ^ (6 * d + 6)) := by
                rintro ⟨h1, h2⟩
                apply hjK
                rw [h2, show 6 * d + 6 = 6 * e by omega]
              have hiff := hsumE d j hd hnotold
              rw [hde, hj64] at hiff
              rw [show (decide (j % 64 ≠ i / 2 ^ (6 * e) % 64)) = true by simp [hjK],
                Bool.and_true]
              exact hiff
          · have hparent : wordAt (setWordAt M e (i / 2 ^ (6 * e + 6))
                (wordAt M e (i / 2 ^ (6 * e + 6)) &&&
                  (USIZE_MAX ^^^ 1 <<< (i / 2 ^ (6 * e) % 64)))) (d + 1) (j / 64) =
                wordAt M (d + 1) (j / 64) :=
              hM1ne (d + 1) (j / 64) (fun hcc => hj64 hcc.2)
            rw [hparent, hchild]
            refine hsumE d j hd ?_
            rintro ⟨h1, h2⟩
            apply hj64
            rw [h2, show 6 * d + 6 = 6 * e by omega, hOdef]
        · by_cases hde2 : d = e
          · have hjO : j ≠ i / 2 ^ (6 * e + 6) := by
              intro hc
              exact hnexc ⟨by omega, by rw [hc, show 6 * d + 6 = 6 * e + 6 by omega]⟩
            have hchild : wordAt (setWordAt M e (i / 2 ^ (6 * e + 6))
                (wordAt M e (i / 2 ^ (6 * e + 6)) &&&
                  (USIZE_MAX ^^^ 1 <<< (i / 2 ^ (6 * e) % 64)))) d j = wordAt M d j :=
              hM1ne d j (fun hcc => hjO hcc.2)
            have hparent : wordAt (setWordAt M e (i / 2 ^ (6 * e + 6))
                (wordAt M e (i / 2 ^ (6 * e + 6)) &&&
                  (USIZE_MAX ^^^ 1 <<< (i / 2 ^ (6 * e) % 64)))) (d + 1) (j / 64) =
                wordAt M (d + 1) (j / 64) :=
              hM1ne (d + 1) (j / 64) (fun hcc => by omega)
            rw [hparent, hchild]
            exact hsumE d j hd (fun hcc => by omega)
          · have hchild : wordAt (setWordAt M e (i / 2 ^ (6 * e + 6))
                (wordAt M e (i / 2 ^ (6 * e + 6)) &&&
                  (USIZE_MAX ^^^ 1 <<< (i / 2 ^ (6 * e) % 64)))) d j = wordAt M d j :=
              hM1ne d j (fun hcc => hde2 hcc.1)
            have hparent : wordAt (setWordAt M e (i / 2 ^ (6 * e + 6))
                (wordAt M e (i / 2 ^ (6 * e + 6)) &&&
                  (USIZE_MAX ^^^ 1 <<< (i / 2 ^ (6 * e) % 64)))) (d + 1) (j / 64) =
                wordAt M (d + 1) (j / 64) :=
              hM1ne (d + 1) (j / 64) (fun hcc => by omega)
            rw [hparent, hchild]
            exact hsumE d j hd (fun hcc => by omega)
      rw [hstep]
      by_cases hz : wordAt M e (i / 2 ^ (6 * e + 6)) &&&
          (USIZE_MAX ^^^ 1 <<< (i / 2 ^ (6 * e) % 64)) = 0
      · rw [if_pos hz]
        have hpath1 : ∀ f, f < e + 1 →
            wordAt (setWordAt M e (i / 2 ^ (6 * e + 6))
              (wordAt M e (i / 2 ^ (6 * e + 6)) &&&
                (USIZE_MAX ^^^ 1 <<< (i / 2 ^ (6 * e) % 64)))) f (i / 2 ^ (6 * f + 6)) = 0 := by
          intro f hf
          by_cases hfe : f = e
          · subst hfe
            rw [hM1O, hz]
          · rw [hM1ne f _ (fun hcc => hfe hcc.1)]
            exact hpath f (by omega)
        obtain ⟨M2, r, heq, hpost⟩ := ih (e + 1)
          (setWordAt M e (i / 2 ^ (6 * e + 6))
            (wordAt M e (i / 2 ^ (6 * e + 6)) &&&
              (USIZE_MAX ^^^ 1 <<< (i / 2 ^ (6 * e) % 64)))) i q
          hM1wlt hM1spare (by omega) hal hiq hq64
          (by rw [hM1len]; exact hib) hpath1
          (fun d j hd hnexc => hsum1 d j (by rw [hM1len] at hd; exact hd) hnexc)
          (by rw [hM1len]; omega)
        refine ⟨M2, r, heq, ?_⟩
        obtain ⟨p1, p2, p3, p4, p5, p6⟩ := hpost
        refine ⟨by rw [p1, hM1len], fun f => by rw [p2 f, hM1row f],
          fun f j => le_trans (p3 f j) (hM1le f j),
          fun j => by rw [p4 j, hM1ne 0 j (fun hcc => by omega)], p5, ?_⟩
        cases r with
        | none => exact p6
        | some di =>
          obtain ⟨q1, q2, q3, q4, q5⟩ := p6
          exact ⟨by omega, q2, q3, q4, q5⟩
      · rw [if_neg hz]
        have hWone : wordAt M e (i / 2 ^ (6 * e + 6)) ≠ 0 := by
          intro hc
          apply hz
          rw [hc, Nat.zero_and]
        have hW1lt : wordAt M e (i / 2 ^ (6 * e + 6)) &&&
            (USIZE_MAX ^^^ 1 <<< (i / 2 ^ (6 * e) % 64)) < 2 ^ 64 :=
          lt_of_le_of_lt hW1le hWolt
        have htzlt : trailing_zeros (wordAt M e (i / 2 ^ (6 * e + 6)) &&&
            (USIZE_MAX ^^^ 1 <<< (i / 2 ^ (6 * e) % 64))) < 64 :=
          trailing_zeros_lt _ hz hW1lt
        have htzmul : trailing_zeros (wordAt M e (i / 2 ^ (6 * e + 6)) &&&
            (USIZE_MAX ^^^ 1 <<< (i / 2 ^ (6 * e) % 64))) * 2 ^ (6 * e) < 2 ^ (6 * e + 6) := by
          calc trailing_zeros (wordAt M e (i / 2 ^ (6 * e + 6)) &&&
              (USIZE_MAX ^^^ 1 <<< (i / 2 ^ (6 * e) % 64))) * 2 ^ (6 * e)
              < 64 * 2 ^ (6 * e) := by
                exact (Nat.mul_lt_mul_right (Nat.two_pow_pos _)).mpr htzlt
            _ = 2 ^ (6 * e + 6) := by rw [pow_add]; ring
        have hiidiv : (i / 2 ^ (6 * e + 6) * 2 ^ (6 * e + 6) +
            trailing_zeros (wordAt M e (i / 2 ^ (6 * e + 6)) &&&
              (USIZE_MAX ^^^ 1 <<< (i / 2 ^ (6 * e) % 64))) * 2 ^ (6 * e)) / 2 ^ (6 * e + 6) =
            i / 2 ^ (6 * e + 6) :=
          mul_add_div_small _ _ _ (Nat.two_pow_pos _) htzmul
        refine ⟨_, _, rfl, hM1len, hM1row, hM1le,
          fun j => hM1ne 0 j (fun hcc => by omega), ?_, ?_⟩
        · -- full exactness is restored at the stopping layer
          intro d j hd0
          have hd : d + 1 < M.length := by rw [hM1len] at hd0; exact hd0
          by_cases hexc : d + 1 = e + 1 ∧ j = i / 2 ^ (6 * d + 6)
          · obtain ⟨hx1, hx2⟩ := hexc
            have hdE : d = e := by omega
            subst hdE
            rw [hx2]
            rw [show wordAt (setWordAt M d (i / 2 ^ (6 * d + 6))
                (wordAt M d (i / 2 ^ (6 * d + 6)) &&&
                  (USIZE_MAX ^^^ 1 <<< (i / 2 ^ (6 * d) % 64)))) d (i / 2 ^ (6 * d + 6))
                = wordAt M d (i / 2 ^ (6 * d + 6)) &&&
                  (USIZE_MAX ^^^ 1 <<< (i / 2 ^ (6 * d) % 64)) from hM1O]
            rw [hM1ne (d + 1) _ (fun hcc => by omega)]
            have hold := hsumE d (i / 2 ^ (6 * d + 6)) hd (fun hcc => by omega)
            constructor
            · intro _
              exact hz
            · intro _
              exact hold.mpr hWone
          · exact hsum1 d j hd hexc
        · refine ⟨le_refl e, by rw [hM1len]; exact hlt, ?_, ?_, ?_⟩
          · rw [hM1len]
            have halign := align_add_le i (2 ^ (6 * e + 6)) (2 ^ (6 * M.length))
              (Nat.two_pow_pos _) (pow_dvd_pow 2 (by omega)) hib
            omega
          · rw [hiidiv,
              show wordAt (setWordAt M e (i / 2 ^ (6 * e + 6))
                (wordAt M e (i / 2 ^ (6 * e + 6)) &&&
                  (USIZE_MAX ^^^ 1 <<< (i / 2 ^ (6 * e) % 64)))) e (i / 2 ^ (6 * e + 6))
                = wordAt M e (i / 2 ^ (6 * e + 6)) &&&
                  (USIZE_MAX ^^^ 1 <<< (i / 2 ^ (6 * e) % 64)) from hM1O]
            exact hz
          · rw [hiidiv]
            exact Nat.div_mul_le_self i _
    · -- e ≥ len: loop is over
      obtain ⟨hsum, hzero⟩ := ascend_exit M i e hspare hib hpath hsumE (le_of_not_lt hlt)
      rw [drainAscend_succ_eq, if_neg hlt]
      exact ⟨M, none, rfl, rfl, fun f => rfl, fun f j => le_refl _, fun j => rfl, hsum, hzero⟩

theorem drainNextGo_base_eq (fuel : Nat) (L : List Layer) (i : Nat) :
    drainNextGo (fuel + 1) ⟨L, i, 0⟩ =
      if 0 < L.length then
        if wordAt L 0 (i / 64) == 0 then drainNextGo fuel ⟨L, i, 1⟩
        else
          if wordAt L 0 (i / 64) &&&
              (USIZE_MAX ^^^ 1 <<< trailing_zeros (wordAt L 0 (i / 64))) == 0 then
            match drainAscend i (i + trailing_zeros (wordAt L 0 (i / 64)))
                (setWordAt L 0 (i / 64) (wordAt L 0 (i / 64) &&&
                  (USIZE_MAX ^^^ 1 <<< trailing_zeros (wordAt L 0 (i / 64))))).length 1
                (setWordAt L 0 (i / 64) (wordAt L 0 (i / 64) &&&
                  (USIZE_MAX ^^^ 1 <<< trailing_zeros (wordAt L 0 (i / 64))))) with
            | (layers2, some di) =>
              some (some (i + trailing_zeros (wordAt L 0 (i / 64))), ⟨layers2, di.2, di.1⟩)
            | (layers2, none) =>
              some (some (i + trailing_zeros (wordAt L 0 (i / 64))), ⟨layers2, i, layers2.length⟩)
          else
            some (some (i + trailing_zeros (wordAt L 0 (i / 64))),
              ⟨setWordAt L 0 (i / 64) (wordAt L 0 (i / 64) &&&
                (USIZE_MAX ^^^ 1 <<< trailing_zeros (wordAt L 0 (i / 64)))), i, 0⟩)
      else some (none, ⟨L, i, 0⟩) := rfl

theorem go_base (fuel : Nat) (L : List Layer) (i : Nat)
    (hsum : sumOk L) (hwlt : wordsLt L) (hspare : spareTop L)
    (hlen : 0 < L.length) (hib : i < 2 ^ (6 * L.length)) (hal : i % 64 = 0)
    (hlow : ∀ p, elem L p → i ≤ p)
    (hw : wordAt L 0 (i / 64) ≠ 0) :
    ∃ q s1, drainNextGo (fuel + 1) ⟨L, i, 0⟩ = some (some q, s1) ∧ NextPost L q s1 := by
  have htz := trailing_zeros_spec _ hw (hwlt 0 (i / 64))
  have htzlt : trailing_zeros (wordAt L 0 (i / 64)) < 64 :=
    trailing_zeros_lt _ hw (hwlt 0 (i / 64))
  have hin : i / 64 < (L.getD 0 []).length := (lt_length_of_wordAt_ne hw).2
  have hq_div : (i + trailing_zeros (wordAt L 0 (i / 64))) / 64 = i / 64 := by omega
  have hq_mod : (i + trailing_zeros (wordAt L 0 (i / 64))) % 64 =
      trailing_zeros (wordAt L 0 (i / 64)) := by omega
  have helem : elem L (i + trailing_zeros (wordAt L 0 (i / 64))) := by
    unfold elem
    rw [hq_div, hq_mod]
    exact htz.1
  have hmin : ∀ p, elem L p → i + trailing_zeros (wordAt L 0 (i / 64)) ≤ p := by
    intro p hp
    by_contra hc
    have hpi : i ≤ p := hlow p hp
    have hpdiv : p / 64 = i / 64 := by omega
    have hpmod : p % 64 < trailing_zeros (wordAt L 0 (i / 64)) := by omega
    have := htz.2 (p % 64) hpmod
    unfold elem at hp
    rw [hpdiv] at hp
    rw [hp] at this
    exact Bool.noConfusion this
  -- facts about the cleared layer-0 word
  have hL1word : wordAt (setWordAt L 0 (i / 64) (wordAt L 0 (i / 64) &&&
      (USIZE_MAX ^^^ 1 <<< trailing_zeros (wordAt L 0 (i / 64))))) 0 (i / 64) =
      wordAt L 0 (i / 64) &&& (USIZE_MAX ^^^ 1 <<< trailing_zeros (wordAt L 0 (i / 64))) :=
    wordAt_setWordAt_self _ _ _ _ hlen hin
  have hL1ne : ∀ f j, ¬(f = 0 ∧ j = i / 64) →
      wordAt (setWordAt L 0 (i / 64) (wordAt L 0 (i / 64) &&&
        (USIZE_MAX ^^^ 1 <<< trailing_zeros (wordAt L 0 (i / 64))))) f j = wordAt L f j := by
    intro f j hc
    exact wordAt_setWordAt_ne L _ (fun hcc => hc ⟨hcc.1.symm, hcc.2.symm⟩)
  have hL1le : ∀ f j, wordAt (setWordAt L 0 (i / 64) (wordAt L 0 (i / 64) &&&
      (USIZE_MAX ^^^ 1 <<< trailing_zeros (wordAt L 0 (i / 64))))) f j ≤ wordAt L f j :=
    wordAt_setWordAt_le L 0 _ _ Nat.and_le_left
  have hL1len : (setWordAt L 0 (i / 64) (wordAt L 0 (i / 64) &&&
      (USIZE_MAX ^^^ 1 <<< trailing_zeros (wordAt L 0 (i / 64))))).length = L.length :=
    length_setWordAt _ _ _ _
  have hL1row : ∀ f, ((setWordAt L 0 (i / 64) (wordAt L 0 (i / 64) &&&
      (USIZE_MAX ^^^ 1 <<< trailing_zeros (wordAt L 0 (i / 64))))).getD f []).length =
      (L.getD f []).length :=
    fun f => row_length_setWordAt _ _ _ _ f
  have hupd : ∀ p, elem (setWordAt L 0 (i / 64) (wordAt L 0 (i / 64) &&&
      (USIZE_MAX ^^^ 1 <<< trailing_zeros (wordAt L 0 (i / 64))))) p ↔
      (elem L p ∧ p ≠ i + trailing_zeros (wordAt L 0 (i / 64))) := by
    intro p
    unfold elem
    by_cases hp64 : p / 64 = i / 64
    · rw [hp64, hL1word, testBit_and_mask _ _ _ (hwlt 0 (i / 64)) htzlt]
      constructor
      · intro hb
        have h1 := (Bool.and_eq_true _ _).mp hb
        refine ⟨?_, ?_⟩
        · exact h1.1
        · intro hcq
          have : p % 64 = trailing_zeros (wordAt L 0 (i / 64)) := by
            rw [hcq, hq_mod]
          rw [this] at h1
          simp at h1
      · rintro ⟨hel, hne⟩
        rw [hel]
        simp only [Bool.true_and, decide_eq_true_eq]
        intro hcm
        apply hne
        have hqq : (i + trailing_zeros (wordAt L 0 (i / 64))) / 64 = p / 64 := by
          rw [hq_div, hp64]
        omega
    · rw [hL1ne 0 (p / 64) (fun hcc => hp64 hcc.2)]
      constructor
      · intro hb
        refine ⟨hb, ?_⟩
        intro hcq
        apply hp64
        rw [hcq, hq_div]
      · exact fun hcc => hcc.1
  rw [drainNextGo_base_eq, if_pos hlen, if_neg (by simp [hw])]
  by_cases hz : wordAt L 0 (i / 64) &&&
      (USIZE_MAX ^^^ 1 <<< trailing_zeros (wordAt L 0 (i / 64))) = 0
  · -- the word became empty: run the ascent loop
    rw [if_pos (by simp [hz])]
    have hsumE1 : ∀ d j, d + 1 < (setWordAt L 0 (i / 64) (wordAt L 0 (i / 64) &&&
        (USIZE_MAX ^^^ 1 <<< trailing_zeros (wordAt L 0 (i / 64))))).length →
        ¬(d + 1 = 1 ∧ j = i / 2 ^ (6 * d + 6)) →
        (Nat.testBit (wordAt (setWordAt L 0 (i / 64) (wordAt L 0 (i / 64) &&&
          (USIZE_MAX ^^^ 1 <<< trailing_zeros (wordAt L 0 (i / 64))))) (d + 1) (j / 64))
          (j % 64) = true ↔
          wordAt (setWordAt L 0 (i / 64) (wordAt L 0 (i / 64) &&&
            (USIZE_MAX ^^^ 1 <<< trailing_zeros (wordAt L 0 (i / 64))))) d j ≠ 0) := by
    -- parent layers are untouched; only layer-0 word i/64 changed, which is
    -- exactly the excepted pair
      intro d j hd0 hnexc
      rw [hL1len] at hd0
      rw [hL1ne (d + 1) (j / 64) (fun hcc => by omega)]
      cases d with
      | zero =>
        have hj : j ≠ i / 64 := by
          intro hc
          apply hnexc
          refine ⟨rfl, ?_⟩
          rw [hc]
          norm_num
        rw [hL1ne 0 j (fun hcc => hj hcc.2)]
        exact hsum 0 j hd0
      | succ m =>
        rw [hL1ne (m + 1) j (fun hcc => by omega)]
        exact hsum (m + 1) j hd0
    have hpath1 : ∀ f, f < 1 → wordAt (setWordAt L 0 (i / 64) (wordAt L 0 (i / 64) &&&
        (USIZE_MAX ^^^ 1 <<< trailing_zeros (wordAt L 0 (i / 64))))) f
        (i / 2 ^ (6 * f + 6)) = 0 := by
      intro f hf
      have hf0 : f = 0 := by omega
      subst hf0
      rw [show i / 2 ^ (6 * 0 + 6) = i / 64 by norm_num, hL1word, hz]
    obtain ⟨M2, r, heq, hpost⟩ := ascend_spec
      (setWordAt L 0 (i / 64) (wordAt L 0 (i / 64) &&&
        (USIZE_MAX ^^^ 1 <<< trailing_zeros (wordAt L 0 (i / 64))))).length 1
      (setWordAt L 0 (i / 64) (wordAt L 0 (i / 64) &&&
        (USIZE_MAX ^^^ 1 <<< trailing_zeros (wordAt L 0 (i / 64))))) i
      (i + trailing_zeros (wordAt L 0 (i / 64)))
      (fun d j => lt_of_le_of_lt (hL1le d j) (hwlt d j))
      (by
        intro j hj
        rw [hL1len]
        have h1 := hL1le (L.length - 1) j
        have h2 := hspare j hj
        omega)
      (le_refl 1) hal (Nat.le_add_right _ _) (by omega)
      (by rw [hL1len]; exact hib) hpath1 hsumE1 (by omega)
    rw [heq]
    obtain ⟨p1, p2, p3, p4, p5, p6⟩ := hpost
    have hM2len : M2.length = L.length := by rw [p1, hL1len]
    have hM2row : ∀ f, (M2.getD f []).length = (L.getD f []).length := by
      intro f
      rw [p2 f, hL1row f]
    have hM2le : ∀ f j, wordAt M2 f j ≤ wordAt L f j :=
      fun f j => le_trans (p3 f j) (hL1le f j)
    have hM2elem : ∀ p, elem M2 p ↔ (elem L p ∧ p ≠ i + trailing_zeros (wordAt L 0 (i / 64))) := by
      intro p
      rw [show elem M2 p ↔ elem (setWordAt L 0 (i / 64) (wordAt L 0 (i / 64) &&&
        (USIZE_MAX ^^^ 1 <<< trailing_zeros (wordAt L 0 (i / 64))))) p from by
          unfold elem
          rw [p4]]
      exact hupd p
    have hM2wlt : wordsLt M2 := fun d j => lt_of_le_of_lt (hM2le d j) (hwlt d j)
    have hM2spare : spareTop M2 := by
      intro j hj
      rw [hM2len]
      have h1 := hM2le (L.length - 1) j
      have h2 := hspare j hj
      omega
    cases r with
    | some di =>
      obtain ⟨q1, q2, q3, q4, q5⟩ := p6
      refine ⟨_, _, rfl, helem, hmin, hM2elem, ?_, hM2len, hM2row, hM2le⟩
      refine { sum := p5
               wlt := hM2wlt
               spare := hM2spare
               dle := ?_
               hib := ?_
               align := ?_
               lower := ?_
               exh := ?_ }
      · show di.1 ≤ M2.length
        omega
      · intro _
        show di.2 < 2 ^ (6 * M2.length)
        exact q3
      · intro h0
        exact absurd (show di.1 = 0 from h0) (by omega)
      · intro _ p hp
        show di.2 / 2 ^ (6 * di.1 + 6) * 2 ^ (6 * di.1 + 6) ≤ p
        have hip : i ≤ p := hlow p ((hM2elem p).mp hp).1
        exact le_trans q5 hip
      · intro hc
        exact absurd (show M2.length ≤ di.1 from hc) (by omega)
    | none =>
      refine ⟨_, _, rfl, helem, hmin, hM2elem, ?_, hM2len, hM2row, hM2le⟩
      refine { sum := p5
               wlt := hM2wlt
               spare := hM2spare
               dle := ?_
               hib := ?_
               align := ?_
               lower := ?_
               exh := ?_ }
      · show M2.length ≤ M2.length
        exact le_refl _
      · intro hc
        exact absurd (show M2.length < M2.length from hc) (lt_irrefl _)
      · intro _
        exact hal
      · intro hc
        exact absurd (show M2.length < M2.length from hc) (lt_irrefl _)
      · intro _
        exact noElem_of_allZero p6
  · -- the word still has set bits: stay at depth 0
    rw [if_neg (by simp [hz])]
    refine ⟨_, _, rfl, helem, hmin, hupd, ?_, hL1len, hL1row, hL1le⟩
    refine {
      sum := ?_
      wlt := fun d j => lt_of_le_of_lt (hL1le d j) (hwlt d j)
      spare := ?_
      dle := ?_
      hib := ?_
      align := fun _ => hal
      lower := ?_
      exh := ?_ }
    · intro d j hd0
      rw [hL1len] at hd0
      rw [hL1ne (d + 1) (j / 64) (fun hcc => by omega)]
      by_cases hcj : d = 0 ∧ j = i / 64
      · obtain ⟨hd1, hj1⟩ := hcj
        subst hd1
        subst hj1
        rw [hL1word]
        have hold := hsum 0 (i / 64) hd0
        constructor
        · intro _
          exact hz
        · intro _
          exact hold.mpr hw
      · rw [hL1ne d j hcj]
        exact hsum d j hd0
    · intro j hj
      show wordAt (setWordAt L 0 (i / 64) (wordAt L 0 (i / 64) &&&
        (USIZE_MAX ^^^ 1 <<< trailing_zeros (wordAt L 0 (i / 64)))))
        ((setWordAt L 0 (i / 64) (wordAt L 0 (i / 64) &&&
          (USIZE_MAX ^^^ 1 <<< trailing_zeros (wordAt L 0 (i / 64))))).length - 1) j = 0
      rw [hL1len]
      have h1 := hL1le (L.length - 1) j
      have h2 := hspare j hj
      omega
    · show (0 : Nat) ≤ (setWordAt L 0 (i / 64) (wordAt L 0 (i / 64) &&&
        (USIZE_MAX ^^^ 1 <<< trailing_zeros (wordAt L 0 (i / 64))))).length
      exact Nat.zero_le _
    · intro _
      show i < 2 ^ (6 * (setWordAt L 0 (i / 64) (wordAt L 0 (i / 64) &&&
        (USIZE_MAX ^^^ 1 <<< trailing_zeros (wordAt L 0 (i / 64))))).length)
      rw [hL1len]
      exact hib
    · intro _ p hp
      show i / 2 ^ (6 * 0 + 6) * 2 ^ (6 * 0 + 6) ≤ p
      have hip : i ≤ p := hlow p ((hupd p).mp hp).1
      have hi64 : i / 2 ^ (6 * 0 + 6) * 2 ^ (6 * 0 + 6) = i := by
        rw [show (2 : Nat) ^ (6 * 0 + 6) = 64 by norm_num]
        omega
      omega
    · intro hc
      exact absurd (show (setWordAt L 0 (i / 64) (wordAt L 0 (i / 64) &&&
        (USIZE_MAX ^^^ 1 <<< trailing_zeros (wordAt L 0 (i / 64))))).length ≤ 0 from hc)
        (by rw [hL1len]; omega)

theorem drainNextGo_deep_eq (fuel : Nat) (L : List Layer) (i d : Nat) :
    drainNextGo (fuel + 1) ⟨L, i, d + 1⟩ =
      if d + 1 < L.length then
        if wordAt L (d + 1) (i / (BITS <<< ((d + 1) * BITS_SHIFT))) == 0 then
          drainNextGo fuel ⟨L, i, d + 2⟩
        else
          drainNextGo fuel ⟨L,
            i / (BITS <<< ((d + 1) * BITS_SHIFT)) * (BITS <<< ((d + 1) * BITS_SHIFT)) +
              trailing_zeros (wordAt L (d + 1) (i / (BITS <<< ((d + 1) * BITS_SHIFT)))) <<<
                ((d + 1) * BITS_SHIFT),
            d⟩
      else some (none, ⟨L, i, d + 1⟩) := by
  rw [drainNextGo_succ_eq]
  dsimp only
  rw [if_pos (Nat.succ_pos d), Nat.add_sub_cancel]

theorem drainNextGo_up (fuel : Nat) (L : List Layer) (i d : Nat) (hd : d < L.length)
    (hw : wordAt L d (i / 2 ^ (6 * d + 6)) = 0) :
    drainNextGo (fuel + 1) ⟨L, i, d⟩ = drainNextGo fuel ⟨L, i, d + 1⟩ := by
  rw [drainNextGo_succ_eq]
  rw [if_pos (show (⟨L, i, d⟩ : DrainState).depth < (⟨L, i, d⟩ : DrainState).layers.length
    from hd)]
  rw [if_pos (show (wordAt L d (i / (BITS <<< (d * BITS_SHIFT))) == 0) = true by
    rw [BITS_shift_eq, hw]
    rfl)]

theorem drainNextGo_exhaust_lit (fuel : Nat) (L : List Layer) (i d : Nat)
    (hd : L.length ≤ d) :
    drainNextGo (fuel + 1) ⟨L, i, d⟩ = some (none, ⟨L, i, d⟩) := by
  rw [drainNextGo_succ_eq]
  rw [if_neg (show ¬((⟨L, i, d⟩ : DrainState).depth < (⟨L, i, d⟩ : DrainState).layers.length)
    from not_lt.mpr hd)]

theorem go_descend : ∀ d (L : List Layer) (i fuel : Nat),
    sumOk L → wordsLt L → spareTop L →
    d < L.length → i < 2 ^ (6 * L.length) → (d = 0 → i % 64 = 0) →
    (∀ p, elem L p → i / 2 ^ (6 * d + 6) * 2 ^ (6 * d + 6) ≤ p) →
    wordAt L d (i / 2 ^ (6 * d + 6)) ≠ 0 →
    ∃ q s1, drainNextGo (fuel + d + 1) ⟨L, i, d⟩ = some (some q, s1) ∧ NextPost L q s1 := by
  intro d
  induction d with
  | zero =>
    intro L i fuel hsum hwlt hspare hd hib hal hlow hw
    have hal0 := hal rfl
    have hlow0 : ∀ p, elem L p → i ≤ p := by
      intro p hp
      have := hlow p hp
      rw [show (2 : Nat) ^ (6 * 0 + 6) = 64 by norm_num] at this
      omega
    have hw0 : wordAt L 0 (i / 64) ≠ 0 := by
      rw [show i / 64 = i / 2 ^ (6 * 0 + 6) by norm_num]
      exact hw
    rw [show fuel + 0 + 1 = fuel + 1 by ring]
    exact go_base fuel L i hsum hwlt hspare hd hib hal0 hlow0 hw0
  | succ d ih =>
    intro L i fuel hsum hwlt hspare hd hib _ hlow hw
    rw [show fuel + (d + 1) + 1 = (fuel + d + 1) + 1 by ring]
    rw [drainNextGo_deep_eq, if_pos hd, BITS_shift_eq, tz_shift_eq]
    rw [if_neg (show ¬((wordAt L (d + 1) (i / 2 ^ (6 * (d + 1) + 6)) == 0) = true) by
      simp only [beq_iff_eq]
      exact hw)]
    set O := i / 2 ^ (6 * (d + 1) + 6) with hO
    set W := wordAt L (d + 1) O with hWdef
    have hW64 : W < 2 ^ 64 := hwlt (d + 1) O
    have htz := trailing_zeros_spec W hw hW64
    have ht64 : trailing_zeros W < 64 := trailing_zeros_lt W hw hW64
    set t := trailing_zeros W with htdef
    have hm0 : (0:Nat) < 2 ^ (6 * d + 6) := Nat.two_pow_pos _
    have hpow : (2:Nat) ^ (6 * (d + 1) + 6) = 2 ^ (6 * d + 6) * 64 := by
      rw [show 6 * (d + 1) + 6 = 6 * d + 6 + 6 by ring, pow_add]
      norm_num
    have hpow2 : (2:Nat) ^ (6 * (d + 1)) = 2 ^ (6 * d + 6) := by
      rw [show 6 * (d + 1) = 6 * d + 6 by ring]
    have hii : O * 2 ^ (6 * (d + 1) + 6) + t * 2 ^ (6 * (d + 1))
        = (64 * O + t) * 2 ^ (6 * d + 6) := by
      rw [hpow, hpow2]
      ring
    have hiidiv : (O * 2 ^ (6 * (d + 1) + 6) + t * 2 ^ (6 * (d + 1))) / 2 ^ (6 * d + 6)
        = 64 * O + t := by
      rw [hii]
      exact Nat.mul_div_cancel _ hm0
    have hchild : wordAt L d (64 * O + t) ≠ 0 := by
      refine (hsum d (64 * O + t) hd).mp ?_
      rw [show (64 * O + t) / 64 = O by omega, show (64 * O + t) % 64 = t by omega, ← hWdef]
      exact htz.1
    have hdvd : (2:Nat) ^ (6 * (d + 1) + 6) ∣ 2 ^ (6 * L.length) :=
      pow_dvd_pow 2 (by omega)
    have halign := align_add_le i (2 ^ (6 * (d + 1) + 6)) (2 ^ (6 * L.length))
      (Nat.two_pow_pos _) hdvd hib
    rw [← hO] at halign
    have htlt : t * 2 ^ (6 * (d + 1)) < 2 ^ (6 * (d + 1) + 6) := by
      have h1 : (t + 1) * 2 ^ (6 * (d + 1)) ≤ 64 * 2 ^ (6 * (d + 1)) :=
        Nat.mul_le_mul_right _ (by omega)
      have h2 : (64:Nat) * 2 ^ (6 * (d + 1)) = 2 ^ (6 * (d + 1) + 6) := by
        rw [pow_add]
        ring
      have h3 : t * 2 ^ (6 * (d + 1)) + 2 ^ (6 * (d + 1)) = (t + 1) * 2 ^ (6 * (d + 1)) := by
        ring
      omega
    have hib2 : O * 2 ^ (6 * (d + 1) + 6) + t * 2 ^ (6 * (d + 1)) < 2 ^ (6 * L.length) := by
      omega
    have hmod : (O * 2 ^ (6 * (d + 1) + 6) + t * 2 ^ (6 * (d + 1))) % 64 = 0 := by
      obtain ⟨k, hk⟩ : (64:Nat) ∣ O * 2 ^ (6 * (d + 1) + 6) + t * 2 ^ (6 * (d + 1)) := by
        rw [hii]
        have h64 : (64:Nat) ∣ 2 ^ (6 * d + 6) := by
          rw [show (64:Nat) = 2 ^ 6 by norm_num]
          exact pow_dvd_pow 2 (by omega)
        exact h64.mul_left _
      rw [hk, Nat.mul_mod_right]
    refine ih L (O * 2 ^ (6 * (d + 1) + 6) + t * 2 ^ (6 * (d + 1))) fuel hsum hwlt hspare
      (by omega) hib2 (fun _ => hmod) ?_ ?_
    · intro p hp
      rw [hiidiv]
      by_contra hc
      push_neg at hc
      have ha := hlow p hp
      have hge : 64 * O ≤ p / 2 ^ (6 * d + 6) := by
        rw [Nat.le_div_iff_mul_le hm0]
        calc 64 * O * 2 ^ (6 * d + 6) = O * 2 ^ (6 * (d + 1) + 6) := by
              rw [hpow]
              ring
          _ ≤ p := ha
      have hlt : p / 2 ^ (6 * d + 6) < 64 * O + t := by
        rw [Nat.div_lt_iff_lt_mul hm0]
        exact hc
      have hum : p / 2 ^ (6 * d + 6) % 64 < t := by omega
      have hbitfalse := htz.2 _ hum
      have he1 : p / 2 ^ (6 * (d + 1) + 6) = O := by
        rw [← div64_pow p (d + 1), hpow2]
        omega
      have he2 : p / 2 ^ (6 * (d + 1)) % 64 = p / 2 ^ (6 * d + 6) % 64 := by
        rw [hpow2]
      have hbit : (wordAt L (d + 1) (p / 2 ^ (6 * (d + 1) + 6))).testBit
          (p / 2 ^ (6 * (d + 1)) % 64) = false := by
        rw [he1, he2, ← hWdef]
        exact hbitfalse
      exact noElem_of_zero hsum (d + 1) p hd hbit hp
    · rw [hiidiv]
      exact hchild

/-- The ascending phase of the outer loop: from any depth on the path, if an
element exists the loop reaches a yield. Fuel `2 * k` covers `k` ascents plus
the descents they enable. -/
theorem go_ascend : ∀ k (L : List Layer) (i d fuel : Nat),
    sumOk L → wordsLt L → spareTop L →
    d < L.length → L.length - d ≤ k →
    i < 2 ^ (6 * L.length) →
    (d = 0 → i % 64 = 0) →
    (∀ p, elem L p → i / 2 ^ (6 * d + 6) * 2 ^ (6 * d + 6) ≤ p) →
    (∃ p, elem L p) →
    ∃ q s1, drainNextGo (fuel + 2 * k + d + 1) ⟨L, i, d⟩ = some (some q, s1) ∧
      NextPost L q s1 := by
  intro k
  induction k with
  | zero =>
    intro L i d fuel _ _ _ hd hk _ _ _ _
    omega
  | succ k ih =>
    intro L i d fuel hsum hwlt hspare hd hk hib hal hlow hex
    by_cases hw : wordAt L d (i / 2 ^ (6 * d + 6)) = 0
    · by_cases hd1 : d + 1 < L.length
      · rw [show fuel + 2 * (k + 1) + d + 1 = (fuel + 2 * k + d + 2) + 1 by ring]
        rw [drainNextGo_up _ _ _ _ hd hw]
        rw [show fuel + 2 * k + d + 2 = fuel + 2 * k + (d + 1) + 1 by ring]
        refine ih L i (d + 1) fuel hsum hwlt hspare hd1 (by omega) hib
          (fun h => absurd h (Nat.succ_ne_zero d)) ?_ hex
        intro p hp
        calc i / 2 ^ (6 * (d + 1) + 6) * 2 ^ (6 * (d + 1) + 6)
            ≤ i / 2 ^ (6 * d + 6) * 2 ^ (6 * d + 6) :=
              align_mono i (2 ^ (6 * d + 6)) (2 ^ (6 * (d + 1) + 6))
                (pow_dvd_pow 2 (by omega))
          _ ≤ p := hlow p hp
      · exfalso
        have hdl : d = L.length - 1 := by omega
        have hi0 : i / 2 ^ (6 * d + 6) = 0 := by
          apply Nat.div_eq_of_lt
          have he : 6 * d + 6 = 6 * L.length := by omega
          rw [he]
          exact hib
        have htop : wordAt L (L.length - 1) 0 = 0 := by
          rw [← hdl]
          rw [hi0] at hw
          exact hw
        obtain ⟨p, hp⟩ := hex
        exact noElem_of_allZero (allZero_of_top_zero hsum hspare htop) p hp
    · rw [show fuel + 2 * (k + 1) + d + 1 = (fuel + 2 * k + 2) + d + 1 by ring]
      exact go_descend d L i (fuel + 2 * k + 2) hsum hwlt hspare hd hib hal hlow hw

/-- A `next` call on a valid cursor that still has elements yields the least
one within the `2 * len + 2` fuel budget of `drainStep`. -/
theorem next_some (L : List Layer) (i d : Nat) (h : DInv ⟨L, i, d⟩)
    (hd : d < L.length) (hex : ∃ p, elem L p) :
    ∃ q s1, drainStep ⟨L, i, d⟩ = (some q, s1) ∧ NextPost L q s1 := by
  obtain ⟨q, s1, heq, hpost⟩ := go_ascend (L.length - d) L i d (d + 1)
    h.sum h.wlt h.spare hd (le_refl _) (h.hib hd) h.align (h.lower hd) hex
  refine ⟨q, s1, ?_, hpost⟩
  show (drainNextGo (2 * L.length + 2) ⟨L, i, d⟩).getD (none, ⟨L, i, d⟩) = (some q, s1)
  rw [show 2 * L.length + 2 = d + 1 + 2 * (L.length - d) + d + 1 by omega, heq]
  rfl

/-- With every word zero the outer loop just ascends to exhaustion. -/
theorem go_exhaust : ∀ k (L : List Layer) (i d fuel : Nat),
    (∀ f j, wordAt L f j = 0) → d ≤ L.length → L.length - d ≤ k →
    drainNextGo (fuel + k + 1) ⟨L, i, d⟩ = some (none, ⟨L, i, L.length⟩) := by
  intro k
  induction k with
  | zero =>
    intro L i d fuel _ hd hk
    have hdl : d = L.length := by omega
    subst hdl
    exact drainNextGo_exhaust_lit fuel L i L.length (le_refl _)
  | succ k ih =>
    intro L i d fuel hz hd hk
    by_cases hdlt : d < L.length
    · rw [show fuel + (k + 1) + 1 = (fuel + k + 1) + 1 by ring]
      rw [drainNextGo_up _ _ _ _ hdlt (hz d _)]
      exact ih L i (d + 1) fuel hz (by omega) (by omega)
    · have hdl : d = L.length := by omega
      subst hdl
      rw [show fuel + (k + 1) + 1 = (fuel + k + 1) + 1 by ring]
      exact drainNextGo_exhaust_lit _ L i L.length (le_refl _)

/-- A `next` call on a valid cursor with no elements left reports exhaustion
and parks the cursor at `depth = len`. -/
theorem next_none (L : List Layer) (i d : Nat) (hsum : sumOk L) (hwlt : wordsLt L)
    (hd : d ≤ L.length) (hno : ∀ p, ¬ elem L p) :
    drainStep ⟨L, i, d⟩ = (none, ⟨L, i, L.length⟩) := by
  have hz : ∀ f j, wordAt L f j = 0 := by
    intro f j
    by_cases hf : f < L.length
    · by_contra hne
      obtain ⟨p, hp⟩ := exists_elem_of_word hsum hwlt f j hf hne
      exact hno p hp
    · exact wordAt_oob L j (le_of_not_lt hf)
  show (drainNextGo (2 * L.length + 2) ⟨L, i, d⟩).getD (none, ⟨L, i, d⟩)
    = (none, ⟨L, i, L.length⟩)
  rw [show 2 * L.length + 2 = L.length + d + 1 + (L.length - d) + 1 by omega,
    go_exhaust (L.length - d) L i d (L.length + d + 1) hz hd (le_refl _)]
  rfl

/-- A `next` call on an exhausted cursor is a no-op reporting exhaustion. -/
theorem next_exhausted (L : List Layer) (i d : Nat) (hd : L.length ≤ d) :
    drainStep ⟨L, i, d⟩ = (none, ⟨L, i, d⟩) := by
  show (drainNextGo (2 * L.length + 2) ⟨L, i, d⟩).getD (none, ⟨L, i, d⟩) = (none, ⟨L, i, d⟩)
  rw [show 2 * L.length + 2 = (2 * L.length + 1) + 1 by ring,
    drainNextGo_exhaust_lit _ _ _ _ hd]
  rfl

/-- Without the exact invariant, no elements still means layer 0 is all zero;
with it, every layer is. -/
theorem allZero_of_noElem {L : List Layer} (hsum : sumOk L) (hwlt : wordsLt L)
    (hno : ∀ p, ¬ elem L p) : ∀ f j, wordAt L f j = 0 := by
  intro f j
  by_cases hf : f < L.length
  · by_contra hne
    obtain ⟨p, hp⟩ := exists_elem_of_word hsum hwlt f j hf hne
    exact hno p hp
  · exact wordAt_oob L j (le_of_not_lt hf)

theorem shiftr_slot_succ (p d : Nat) : p >>> (6 * d + 6) / 64 = p >>> (6 * (d + 1) + 6) := by
  rw [shiftr_div, shiftr_div, show (64 : Nat) = 2 ^ 6 by norm_num, div_pow_div_pow,
    show 6 * d + 6 + 6 = 6 * (d + 1) + 6 by ring]

theorem shiftr_bit_succ (p d : Nat) : p >>> (6 * d + 6) % 64 = p >>> (6 * (d + 1)) % 64 := by
  rw [show 6 * (d + 1) = 6 * d + 6 by ring]

/-- `set` keeps the exact summary invariant. -/
theorem sumOk_set {L : List Layer} {cap p : Nat} (hsum : sumOk L)
    (hlens : goodLens L cap) (hp : p < cap) : sumOk (setLayers L p) := by
  intro d j hd1
  rw [setLayers_length] at hd1
  have hdl : d < L.length := by omega
  have hposd : p >>> (6 * d + 6) < (L.getD d []).length := hlens d hdl p hp
  have hposd1 : p >>> (6 * (d + 1) + 6) < (L.getD (d + 1) []).length := hlens (d + 1) hd1 p hp
  rw [wordAt_setLayers, wordAt_setLayers]
  by_cases hj : j = p >>> (6 * d + 6)
  · subst hj
    have hpar : p >>> (6 * d + 6) / 64 = p >>> (6 * (d + 1) + 6) := shiftr_slot_succ p d
    rw [if_pos ⟨hd1, hpar, by rw [hpar]; exact hposd1⟩]
    rw [if_pos ⟨hdl, rfl, hposd⟩]
    constructor
    · intro _
      refine (ne_zero_iff_testBit _).mpr ⟨p >>> (6 * d) % 64, ?_⟩
      rw [testBit_or_pow]
      simp
    · intro _
      rw [testBit_or_pow, shiftr_bit_succ]
      simp
  · by_cases hpj : j / 64 = p >>> (6 * (d + 1) + 6) ∧ j / 64 < (L.getD (d + 1) []).length
    · rw [if_pos ⟨hd1, hpj.1, hpj.2⟩, if_neg (fun hc => hj hc.2.1)]
      rw [testBit_or_pow]
      have hneq : j % 64 ≠ p >>> (6 * (d + 1)) % 64 := by
        intro he
        apply hj
        have h1 : j / 64 = p >>> (6 * d + 6) / 64 := by rw [hpj.1, shiftr_slot_succ]
        have h2 : j % 64 = p >>> (6 * d + 6) % 64 := by rw [he, shiftr_bit_succ]
        omega
      rw [decide_eq_false hneq, Bool.or_false]
      exact hsum d j hd1
    · rw [if_neg (fun hc => hpj ⟨hc.2.1, hc.2.2⟩), if_neg (fun hc => hj hc.2.1)]
      exact hsum d j hd1

/-- `set` keeps upward summary soundness. -/
theorem upOk_set {L : List Layer} {cap p : Nat} (hup : upOk L)
    (hlens : goodLens L cap) (hp : p < cap) : upOk (setLayers L p) := by
  intro d j hd1
  rw [setLayers_length] at hd1
  have hdl : d < L.length := by omega
  have hposd : p >>> (6 * d + 6) < (L.getD d []).length := hlens d hdl p hp
  rw [wordAt_setLayers, wordAt_setLayers]
  by_cases hj : j = p >>> (6 * d + 6)
  · subst hj
    intro _
    rw [if_pos ⟨hdl, rfl, hposd⟩]
    refine (ne_zero_iff_testBit _).mpr ⟨p >>> (6 * d) % 64, ?_⟩
    rw [testBit_or_pow]
    simp
  · by_cases hpj : j / 64 = p >>> (6 * (d + 1) + 6) ∧ j / 64 < (L.getD (d + 1) []).length
    · rw [if_pos ⟨hd1, hpj.1, hpj.2⟩, if_neg (fun hc => hj hc.2.1)]
      intro hbit
      rw [testBit_or_pow] at hbit
      have hneq : j % 64 ≠ p >>> (6 * (d + 1)) % 64 := by
        intro he
        apply hj
        have h1 : j / 64 = p >>> (6 * d + 6) / 64 := by rw [hpj.1, shiftr_slot_succ]
        have h2 : j % 64 = p >>> (6 * d + 6) % 64 := by rw [he, shiftr_bit_succ]
        omega
      rw [decide_eq_false hneq, Bool.or_false] at hbit
      exact hup d j hd1 hbit
    · rw [if_neg (fun hc => hpj ⟨hc.2.1, hc.2.2⟩), if_neg (fun hc => hj hc.2.1)]
      exact hup d j hd1

/-- `clear` keeps upward summary soundness (it can only zero summary bits). -/
theorem upOk_clear {L : List Layer} {cap p : Nat} (hup : upOk L) (hwlt : wordsLt L)
    (hlens : goodLens L cap) (hp : p < cap) : upOk (clearLayers L p) := by
  intro d j hd1
  rw [clearLayers_length] at hd1
  have hdl : d < L.length := by omega
  have hposd : p >>> (6 * d + 6) < (L.getD d []).length := hlens d hdl p hp
  have hposd1 : p >>> (6 * (d + 1) + 6) < (L.getD (d + 1) []).length := hlens (d + 1) hd1 p hp
  rw [wordAt_clearLayers, wordAt_clearLayers]
  by_cases hj : j = p >>> (6 * d + 6)
  · subst hj
    have hpar : p >>> (6 * d + 6) / 64 = p >>> (6 * (d + 1) + 6) := shiftr_slot_succ p d
    rw [if_pos ⟨hd1, hpar, by rw [hpar]; exact hposd1⟩]
    rw [if_pos ⟨hdl, rfl, hposd⟩]
    intro hbit
    rw [testBit_and_mask _ _ _ (hwlt _ _) (by omega), shiftr_bit_succ] at hbit
    simp at hbit
  · by_cases hpj : j / 64 = p >>> (6 * (d + 1) + 6) ∧ j / 64 < (L.getD (d + 1) []).length
    · rw [if_pos ⟨hd1, hpj.1, hpj.2⟩, if_neg (fun hc => hj hc.2.1)]
      intro hbit
      rw [testBit_and_mask _ _ _ (hwlt _ _) (by omega)] at hbit
      rw [Bool.and_eq_true] at hbit
      exact hup d j hd1 hbit.1
    · rw [if_neg (fun hc => hpj ⟨hc.2.1, hc.2.2⟩), if_neg (fun hc => hj hc.2.1)]
      exact hup d j hd1

theorem wordsLt_set {L : List Layer} (hwlt : wordsLt L) (p : Nat) :
    wordsLt (setLayers L p) := by
  intro d j
  rw [wordAt_setLayers]
  by_cases hc : d < L.length ∧ j = p >>> (6 * d + 6) ∧ j < (L.getD d []).length
  · rw [if_pos hc]
    exact or_pow_lt (hwlt d j) (by omega)
  · rw [if_neg hc]
    exact hwlt d j

theorem wordsLt_clear {L : List Layer} (hwlt : wordsLt L) (p : Nat) :
    wordsLt (clearLayers L p) := by
  intro d j
  rw [wordAt_clearLayers]
  by_cases hc : d < L.length ∧ j = p >>> (6 * d + 6) ∧ j < (L.getD d []).length
  · rw [if_pos hc]
    exact and_le_lt_pow (hwlt d j)
  · rw [if_neg hc]
    exact hwlt d j

theorem spareTop_set {L : List Layer} {cap p : Nat} (hspare : spareTop L)
    (hcap : cap ≤ 2 ^ (6 * L.length)) (hp : p < cap) : spareTop (setLayers L p) := by
  intro j hj
  show wordAt (setLayers L p) ((setLayers L p).length - 1) j = 0
  rw [setLayers_length, wordAt_setLayers]
  have hp0 : p >>> (6 * (L.length - 1) + 6) = 0 := by
    rw [shiftr_div]
    apply Nat.div_eq_of_lt
    rcases Nat.eq_zero_or_pos L.length with h0 | h0
    · rw [h0] at hcap
      norm_num at hcap
      have hpz : p = 0 := by omega
      rw [hpz]
      exact Nat.two_pow_pos _
    · have he : 6 * (L.length - 1) + 6 = 6 * L.length := by omega
      rw [he]
      omega
  rw [if_neg (fun hc => absurd (hc.2.1.trans hp0) (by omega))]
  exact hspare j hj

theorem spareTop_clear {L : List Layer} (hspare : spareTop L) (p : Nat) :
    spareTop (clearLayers L p) := by
  intro j hj
  show wordAt (clearLayers L p) ((clearLayers L p).length - 1) j = 0
  rw [clearLayers_length, wordAt_clearLayers]
  by_cases hc : L.length - 1 < L.length ∧ j = p >>> (6 * (L.length - 1) + 6) ∧
      j < (L.getD (L.length - 1) []).length
  · rw [if_pos hc, hspare j hj, Nat.zero_and]
  · rw [if_neg hc]
    exact hspare j hj

/-- `set` below the capacity keeps well-formedness. -/
theorem WF_set (b : BitSet) (p : Nat) (h : WF b) (hp : p < b.cap) : WF (b.set p) := by
  refine ⟨wordsLt_set h.wlt p, spareTop_set h.spare h.capok hp, ?_, ?_, ?_⟩
  · intro d hd p2 hp2
    rw [show (b.set p).layers = setLayers b.layers p from rfl] at hd ⊢
    rw [setLayers_length] at hd
    rw [setLayers_row_length]
    exact h.lens d hd p2 hp2
  · intro d hd
    rw [show (b.set p).layers = setLayers b.layers p from rfl] at hd ⊢
    rw [setLayers_length] at hd
    rw [setLayers_row_length]
    exact h.lpos d hd
  · show b.cap ≤ 2 ^ (6 * (setLayers b.layers p).length)
    rw [setLayers_length]
    exact h.capok

/-- `clear` below the capacity keeps well-formedness. -/
theorem WF_clear (b : BitSet) (p : Nat) (h : WF b) : WF (b.clear p) := by
  refine ⟨wordsLt_clear h.wlt p, spareTop_clear h.spare p, ?_, ?_, ?_⟩
  · intro d hd p2 hp2
    rw [show (b.clear p).layers = clearLayers b.layers p from rfl] at hd ⊢
    rw [clearLayers_length] at hd
    rw [clearLayers_row_length]
    exact h.lens d hd p2 hp2
  · intro d hd
    rw [show (b.clear p).layers = clearLayers b.layers p from rfl] at hd ⊢
    rw [clearLayers_length] at hd
    rw [clearLayers_row_length]
    exact h.lpos d hd
  · show b.cap ≤ 2 ^ (6 * (clearLayers b.layers p).length)
    rw [clearLayers_length]
    exact h.capok

theorem reserve_eq (b : BitSet) (n : Nat) :
    b.reserve n = if n ≤ b.cap then b
      else ⟨growLayers b.layers (bit_set_layout (round_capacity_up n)),
        round_capacity_up n⟩ := rfl

theorem wordsLt_reserve (b : BitSet) (n : Nat) (hwlt : wordsLt b.layers) :
    wordsLt (b.reserve n).layers := by
  rw [reserve_eq]
  by_cases hle : n ≤ b.cap
  · rw [if_pos hle]
    exact hwlt
  · rw [if_neg hle]
    intro d j
    show wordAt (growLayers b.layers (bit_set_layout (round_capacity_up n))) d j < 2 ^ 64
    rw [growLayers_wordAt]
    exact hwlt d j

theorem upOk_reserve (b : BitSet) (n : Nat) (hwlt : wordsLt b.layers)
    (hup : upOk b.layers) : upOk (b.reserve n).layers := by
  rw [reserve_eq]
  by_cases hle : n ≤ b.cap
  · rw [if_pos hle]
    exact hup
  · rw [if_neg hle]
    intro d j hd1 hbit
    rw [show (⟨growLayers b.layers (bit_set_layout (round_capacity_up n)),
        round_capacity_up n⟩ : BitSet).layers
      = growLayers b.layers (bit_set_layout (round_capacity_up n)) from rfl]
      at hd1 hbit ⊢
    rw [growLayers_wordAt] at hbit ⊢
    by_cases hdo : d + 1 < b.layers.length
    · exact hup d j hdo hbit
    · rw [wordAt_oob _ _ (le_of_not_lt hdo), Nat.zero_testBit] at hbit
      exact absurd hbit Bool.false_ne_true

theorem allZero_reserve (b : BitSet) (n : Nat)
    (hz : ∀ f j, wordAt b.layers f j = 0) :
    ∀ f j, wordAt (b.reserve n).layers f j = 0 := by
  rw [reserve_eq]
  by_cases hle : n ≤ b.cap
  · rw [if_pos hle]
    exact hz
  · rw [if_neg hle]
    intro f j
    show wordAt (growLayers b.layers (bit_set_layout (round_capacity_up n))) f j = 0
    rw [growLayers_wordAt]
    exact hz f j

theorem sumOk_of_allZero {L : List Layer} (hz : ∀ f j, wordAt L f j = 0) : sumOk L := by
  intro d j _
  rw [hz, hz, Nat.zero_testBit]
  constructor
  · intro hb
    exact absurd hb Bool.false_ne_true
  · intro hb
    exact absurd rfl hb

/-- `reserve` keeps well-formedness. -/
theorem WF_reserve (b : BitSet) (n : Nat) (hn : n < 2 ^ 64) (h : WF b) :
    WF (b.reserve n) := by
  rw [reserve_eq]
  by_cases hle : n ≤ b.cap
  · rw [if_pos hle]
    exact h
  · rw [if_neg hle]
    have hC63 : round_capacity_up n ≤ 2 ^ 63 := rcu_le n hn
    have hcov : round_capacity_up n
        ≤ 2 ^ (6 * (bit_set_layout (round_capacity_up n)).length) :=
      bit_set_layout_covers _ hC63
    refine ⟨?_, ?_, ?_, ?_, ?_⟩
    · intro d j
      show wordAt (growLayers b.layers (bit_set_layout (round_capacity_up n))) d j < 2 ^ 64
      rw [growLayers_wordAt]
      exact h.wlt d j
    · intro j hj
      show wordAt (growLayers b.layers (bit_set_layout (round_capacity_up n)))
        ((growLayers b.layers (bit_set_layout (round_capacity_up n))).length - 1) j = 0
      rw [growLayers_wordAt, growLayers_length]
      by_cases hml : (bit_set_layout (round_capacity_up n)).length ≤ b.layers.length
      · rw [Nat.max_eq_left hml]
        exact h.spare j hj
      · rw [Nat.max_eq_right (le_of_lt (not_le.mp hml))]
        exact wordAt_oob _ j (by omega)
    · intro d hd p hp
      have hd' : d < max b.layers.length (bit_set_layout (round_capacity_up n)).length := by
        have hd2 : d < (growLayers b.layers (bit_set_layout (round_capacity_up n))).length := hd
        rw [growLayers_length] at hd2
        exact hd2
      have hp' : p < round_capacity_up n := hp
      show p >>> (6 * d + 6)
        < ((growLayers b.layers (bit_set_layout (round_capacity_up n))).getD d []).length
      rw [growLayers_row_length]
      by_cases hdn : d < (bit_set_layout (round_capacity_up n)).length
      · have hslot := bit_set_layout_slots (round_capacity_up n) d p hp' hC63 hdn
        refine lt_max_of_lt_right ?_
        rw [shiftr_div]
        exact hslot
      · have hp0 : p >>> (6 * d + 6) = 0 := by
          rw [shiftr_div]
          apply Nat.div_eq_of_lt
          calc p < round_capacity_up n := hp'
            _ ≤ 2 ^ (6 * (bit_set_layout (round_capacity_up n)).length) := hcov
            _ ≤ 2 ^ (6 * d + 6) := Nat.pow_le_pow_right (by norm_num) (by omega)
        rw [hp0]
        have hdold : d < b.layers.length := by omega
        exact lt_max_of_lt_left (h.lpos d hdold)
    · intro d hd
      have hd' : d < max b.layers.length (bit_set_layout (round_capacity_up n)).length := by
        have hd2 : d < (growLayers b.layers (bit_set_layout (round_capacity_up n))).length := hd
        rw [growLayers_length] at hd2
        exact hd2
      show 0 < ((growLayers b.layers (bit_set_layout (round_capacity_up n))).getD d []).length
      rw [growLayers_row_length]
      by_cases hdn : d < (bit_set_layout (round_capacity_up n)).length
      · refine lt_max_of_lt_right ?_
        refine bit_set_layout_pos (round_capacity_up n) _ ?_
        rw [List.getD_eq_getElem _ 0 hdn]
        exact List.getElem_mem hdn
      · have hdold : d < b.layers.length := by omega
        exact lt_max_of_lt_left (h.lpos d hdold)
    · show round_capacity_up n
        ≤ 2 ^ (6 * (growLayers b.layers (bit_set_layout (round_capacity_up n))).length)
      rw [growLayers_length]
      calc round_capacity_up n
          ≤ 2 ^ (6 * (bit_set_layout (round_capacity_up n)).length) := hcov
        _ ≤ 2 ^ (6 * max b.layers.length (bit_set_layout (round_capacity_up n)).length) :=
            Nat.pow_le_pow_right (by norm_num) (by omega)

/-! ### Emptiness and the invariant along `ReachE` -/

theorem is_empty_iff_layer0 (b : BitSet) :
    b.is_empty = true ↔ ∀ j, wordAt b.layers 0 j = 0 := by
  have he : b.is_empty = match b.layers with
      | [] => true
      | l0 :: _ => l0.all (fun w => w == 0) := rfl
  cases hbl : b.layers with
  | nil =>
    rw [he, hbl]
    constructor
    · intro _ j
      rfl
    · intro _
      rfl
  | cons l0 ls =>
    rw [he, hbl]
    rw [List.all_eq_true]
    constructor
    · intro hall j
      show l0.getD j 0 = 0
      by_cases hj : j < l0.length
      · rw [List.getD_eq_getElem _ 0 hj]
        exact beq_iff_eq.mp (hall _ (List.getElem_mem hj))
      · exact List.getD_eq_default _ _ (le_of_not_lt hj)
    · intro hz x hx
      obtain ⟨idx, hidx, rfl⟩ := List.mem_iff_getElem.mp hx
      have := hz idx
      rw [show wordAt (l0 :: ls) 0 idx = l0.getD idx 0 from rfl,
        List.getD_eq_getElem _ 0 hidx] at this
      rw [this]
      rfl

theorem noElem_of_layer0 {L : List Layer} (h0 : ∀ j, wordAt L 0 j = 0) :
    ∀ p, ¬ elem L p := by
  intro p hp
  unfold elem at hp
  rw [h0, Nat.zero_testBit] at hp
  exact Bool.false_ne_true hp

theorem EInv_new : EInv BitSet.new := by
  refine ⟨⟨?_, ?_, ?_, ?_, ?_⟩, ?_⟩
  · intro d j
    show (0 : Nat) < 2 ^ 64
    norm_num
  · intro j _
    rfl
  · intro d hd
    have hd0 : d < ([] : List Layer).length := hd
    simp at hd0
  · intro d hd
    have hd0 : d < ([] : List Layer).length := hd
    simp at hd0
  · show (0 : Nat) ≤ 2 ^ (6 * ([] : List Layer).length)
    norm_num
  · intro d j hd
    have hd0 : d + 1 < ([] : List Layer).length := hd
    simp at hd0

theorem EInv_set (b : BitSet) (p : Nat) (h : EInv b) (hp : p < b.cap) :
    EInv (b.set p) :=
  ⟨WF_set b p h.wf hp, sumOk_set h.sum h.wf.lens hp⟩

theorem EInv_reserve_empty (b : BitSet) (n : Nat) (h : EInv b) (hn : n < 2 ^ 64)
    (hemp : b.is_empty = true) : EInv (b.reserve n) := by
  have h0 := (is_empty_iff_layer0 b).mp hemp
  have hno := noElem_of_layer0 h0
  have hz := allZero_of_noElem h.sum h.wf.wlt hno
  exact ⟨WF_reserve b n hn h.wf, sumOk_of_allZero (allZero_reserve b n hz)⟩

/-- The cursor created by `BitSet::drain` is valid. -/
theorem DInv_init (b : BitSet) (h : EInv b) : DInv b.drainInit := by
  refine ⟨h.sum, h.wf.wlt, h.wf.spare, Nat.sub_le _ _, ?_, ?_, ?_, ?_⟩
  · intro _
    show (0 : Nat) < 2 ^ (6 * b.layers.length)
    exact Nat.two_pow_pos _
  · intro _
    rfl
  · intro _ p _
    show (0 : Nat) / 2 ^ (6 * (b.layers.length - 1) + 6)
      * 2 ^ (6 * (b.layers.length - 1) + 6) ≤ p
    rw [Nat.zero_div, Nat.zero_mul]
    exact Nat.zero_le p
  · intro hle p hp
    have hle' : b.layers.length ≤ b.layers.length - 1 := hle
    have hlen0 : b.layers.length = 0 := by omega
    have hnil : b.layers = [] := List.length_eq_zero.mp hlen0
    have hp' : (wordAt b.layers 0 (p / 64)).testBit (p % 64) = true := hp
    rw [hnil] at hp'
    rw [show wordAt ([] : List Layer) 0 (p / 64) = 0 from rfl, Nat.zero_testBit] at hp'
    exact Bool.false_ne_true hp'

/-- Parking the cursor at `depth = len` when nothing is left keeps it valid. -/
theorem DInv_park (L : List Layer) (i d : Nat) (h : DInv ⟨L, i, d⟩)
    (hno : ∀ p, ¬ elem L p) : DInv (⟨L, i, L.length⟩ : DrainState) := by
  have hdle : d ≤ L.length := h.dle
  refine ⟨h.sum, h.wlt, h.spare, le_refl _, ?_, ?_, ?_, ?_⟩
  · intro hlt
    exact absurd hlt (lt_irrefl _)
  · intro h0
    have h00 : L.length = 0 := h0
    exact h.align (show d = 0 by omega)
  · intro hlt
    exact absurd hlt (lt_irrefl _)
  · intro _
    exact hno

/-- One `next` call preserves the cursor invariant and the layer shape, and
words only shrink. -/
theorem drainStep_DInv (s : DrainState) (h : DInv s) :
    DInv (drainStep s).2 ∧ (drainStep s).2.layers.length = s.layers.length ∧
    (∀ f, ((drainStep s).2.layers.getD f []).length = (s.layers.getD f []).length) ∧
    (∀ f j, wordAt (drainStep s).2.layers f j ≤ wordAt s.layers f j) := by
  obtain ⟨L, i, d⟩ := s
  by_cases hex : ∃ p, elem L p
  · have hd : d < L.length := by
      by_contra hc
      obtain ⟨p, hp⟩ := hex
      exact h.exh (le_of_not_lt hc) p hp
    obtain ⟨q, s1, hstep, hpost⟩ := next_some L i d h hd hex
    rw [hstep]
    unfold NextPost at hpost
    obtain ⟨_, _, _, hinv1, hlen1, hrow1, hle1⟩ := hpost
    exact ⟨hinv1, hlen1, hrow1, hle1⟩
  · have hno : ∀ p, ¬ elem L p := fun p hp => hex ⟨p, hp⟩
    have hstep := next_none L i d h.sum h.wlt h.dle hno
    rw [hstep]
    exact ⟨DInv_park L i d h hno, rfl, fun f => rfl, fun f j => le_refl _⟩

theorem drainIter_DInv (b : BitSet) (h : EInv b) : ∀ k,
    DInv (drainIter b.drainInit k) ∧
    (drainIter b.drainInit k).layers.length = b.layers.length ∧
    (∀ f, ((drainIter b.drainInit k).layers.getD f []).length
      = (b.layers.getD f []).length) := by
  intro k
  induction k with
  | zero => exact ⟨DInv_init b h, rfl, fun f => rfl⟩
  | succ k ih =>
    obtain ⟨hinv, hlen, hrow⟩ := ih
    obtain ⟨hinv1, hlen1, hrow1, _⟩ := drainStep_DInv _ hinv
    refine ⟨hinv1, ?_, ?_⟩
    · rw [show drainIter b.drainInit (k + 1) = (drainStep (drainIter b.drainInit k)).2
        from rfl, hlen1, hlen]
    · intro f
      rw [show drainIter b.drainInit (k + 1) = (drainStep (drainIter b.drainInit k)).2
        from rfl, hrow1 f, hrow f]

theorem EInv_drainSteps (b : BitSet) (h : EInv b) (k : Nat) :
    EInv (b.drainSteps k) := by
  obtain ⟨hinv, hlen, hrow⟩ := drainIter_DInv b h k
  refine ⟨⟨hinv.wlt, hinv.spare, ?_, ?_, ?_⟩, hinv.sum⟩
  · intro d hd p hp
    have hd' : d < (drainIter b.drainInit k).layers.length := hd
    have hp' : p < b.cap := hp
    show p >>> (6 * d + 6) < (((drainIter b.drainInit k).layers).getD d []).length
    rw [hrow d]
    exact h.wf.lens d (by omega) p hp'
  · intro d hd
    have hd' : d < (drainIter b.drainInit k).layers.length := hd
    show 0 < (((drainIter b.drainInit k).layers).getD d []).length
    rw [hrow d]
    exact h.wf.lpos d (by omega)
  · show b.cap ≤ 2 ^ (6 * (drainIter b.drainInit k).layers.length)
    rw [hlen]
    exact h.wf.capok

/-- Every state reachable without `clear`, reserving only while empty,
satisfies the full exact invariant. -/
theorem EInv_ReachE (b : BitSet) (h : ReachE b) : EInv b := by
  induction h with
  | new => exact EInv_new
  | reserve b n _ hn hemp ih => exact EInv_reserve_empty b n ih hn hemp
  | set b p _ hp ih => exact EInv_set b p ih hp
  | drain b k _ ih => exact EInv_drainSteps b ih k

/-- C2 (counterexample to the claim as stated): `reserve 64; set 3; reserve 65`
is a clear-free sequence of reserve and set operations, yet the new top
layer's summary bit 0 is clear while layer 0's word 0 is nonzero: growing a
non-empty set appends zeroed summary layers without summarizing the existing
content. -/
theorem claim_C2_cex :
    (((BitSet.new.reserve 64).set 3).reserve 65).layers.length = 2 ∧
    Nat.testBit (wordAt (((BitSet.new.reserve 64).set 3).reserve 65).layers 1 0) 0
      = false ∧
    wordAt (((BitSet.new.reserve 64).set 3).reserve 65).layers 0 0 ≠ 0 := by
  decide

/-- C2 (amended): after any sequence of reserve and set operations and drain
steps, with no clear calls and with every reserve performed while the bit set
is empty, the summary invariant holds: bit `b` of word `w` of layer `k > 0` is
set iff word `64 * w + b` of layer `k - 1` is nonzero. -/
theorem claim_C2 (b : BitSet) (hb : ReachE b) : ∀ k w bbit, 0 < k →
    k < b.layers.length → bbit < 64 →
    ((wordAt b.layers k w).testBit bbit = true ↔
      wordAt b.layers (k - 1) (64 * w + bbit) ≠ 0) := by
  intro k w bbit hk hklen hbb
  have hsum := (EInv_ReachE b hb).sum
  have hinst := hsum (k - 1) (64 * w + bbit) (by omega)
  rw [show k - 1 + 1 = k by omega] at hinst
  rw [show (64 * w + bbit) / 64 = w by omega,
    show (64 * w + bbit) % 64 = bbit by omega] at hinst
  exact hinst

/-- Witness for the amended C2: reserve 100 while empty, set 5; the layer-1
summary bit 0 agrees with layer 0's word 0 being nonzero. -/
theorem claim_C2_witness :
    (0 < 1 ∧ 1 < ((BitSet.new.reserve 100).set 5).layers.length ∧ 0 < 64) ∧
    ((wordAt ((BitSet.new.reserve 100).set 5).layers 1 0).testBit 0 = true ↔
      wordAt ((BitSet.new.reserve 100).set 5).layers 0 (64 * 0 + 0) ≠ 0) :=
  ⟨⟨by decide, by decide, by decide⟩,
    claim_C2 _
      (ReachE.set _ _ (ReachE.reserve _ _ ReachE.new (by norm_num) rfl) (by decide))
      1 0 0 (by decide) (by decide) (by decide)⟩

/-! ### Termination and upward soundness of `next` under `clear` (C9, C10) -/

/-- The ascent loop preserves upward soundness: entering at depth `e` with the
single possible defect at the just-zeroed path word of layer `e - 1`, the
returned layers are upward-sound, only shrank, and keep their shape; a
stopping pair has positive depth. -/
theorem ascend_upOk : ∀ fuel e (M : List Layer) (i q : Nat),
    wordsLt M → 1 ≤ e → i % 64 = 0 → i ≤ q → q < i + 64 →
    (∀ d j, d + 1 < M.length →
      Nat.testBit (wordAt M (d + 1) (j / 64)) (j % 64) = true →
      ¬(d + 1 = e ∧ j = i / 2 ^ (6 * d + 6)) → wordAt M d j ≠ 0) →
    M.length ≤ fuel + e →
    ∃ M2 r, drainAscend i q fuel e M = (M2, r) ∧
      upOk M2 ∧ wordsLt M2 ∧ M2.length = M.length ∧
      (∀ f, (M2.getD f []).length = (M.getD f []).length) ∧
      (∀ f j, wordAt M2 f j ≤ wordAt M f j) ∧
      (∀ di, r = some di → 1 ≤ di.1) := by
  intro fuel
  induction fuel with
  | zero =>
    intro e M i q hwlt he hal hiq hq64 hupE hfuel
    refine ⟨M, none, drainAscend_zero_eq i q e M, ?_, hwlt, rfl, fun f => rfl,
      fun f j => le_refl _, fun di hdi => Option.noConfusion hdi⟩
    exact fun d j hd hbit => hupE d j hd hbit (fun hc => by omega)
  | succ fuel ih =>
    intro e M i q hwlt he hal hiq hq64 hupE hfuel
    by_cases hlt : e < M.length
    · have hstep := drainAscend_step i q e fuel M hlt hal hiq hq64 he
      have hOdef : i / 2 ^ (6 * e) / 64 = i / 2 ^ (6 * e + 6) := div64_pow i e
      have hWolt : wordAt M e (i / 2 ^ (6 * e + 6)) < 2 ^ 64 := hwlt e _
      have hW1le : wordAt M e (i / 2 ^ (6 * e + 6)) &&&
          (USIZE_MAX ^^^ 1 <<< (i / 2 ^ (6 * e) % 64)) ≤ wordAt M e (i / 2 ^ (6 * e + 6)) :=
        Nat.and_le_left
      have hM1le : ∀ f j,
          wordAt (setWordAt M e (i / 2 ^ (6 * e + 6))
            (wordAt M e (i / 2 ^ (6 * e + 6)) &&&
              (USIZE_MAX ^^^ 1 <<< (i / 2 ^ (6 * e) % 64)))) f j ≤ wordAt M f j :=
        wordAt_setWordAt_le M e _ _ hW1le
      have hM1len : (setWordAt M e (i / 2 ^ (6 * e + 6))
          (wordAt M e (i / 2 ^ (6 * e + 6)) &&&
            (USIZE_MAX ^^^ 1 <<< (i / 2 ^ (6 * e) % 64)))).length = M.length :=
        length_setWordAt M e _ _
      have hM1row : ∀ f, ((setWordAt M e (i / 2 ^ (6 * e + 6))
          (wordAt M e (i / 2 ^ (6 * e + 6)) &&&
            (USIZE_MAX ^^^ 1 <<< (i / 2 ^ (6 * e) % 64)))).getD f []).length =
          (M.getD f []).length :=
        fun f => row_length_setWordAt M e _ _ f
      have hM1O : wordAt (setWordAt M e (i / 2 ^ (6 * e + 6))
          (wordAt M e (i / 2 ^ (6 * e + 6)) &&&
            (USIZE_MAX ^^^ 1 <<< (i / 2 ^ (6 * e) % 64)))) e (i / 2 ^ (6 * e + 6)) =
          wordAt M e (i / 2 ^ (6 * e + 6)) &&&
            (USIZE_MAX ^^^ 1 <<< (i / 2 ^ (6 * e) % 64)) := by
        rw [wordAt_setWordAt M e _ _ hlt]
        by_cases hin : i / 2 ^ (6 * e + 6) < (M.getD e []).length
        · rw [if_pos hin]
        · rw [if_neg hin]
          have h0 : wordAt M e (i / 2 ^ (6 * e + 6)) = 0 :=
            List.getD_eq_default _ _ (le_of_not_lt hin)
          rw [h0, Nat.zero_and]
      have hM1ne : ∀ f j, ¬(f = e ∧ j = i / 2 ^ (6 * e + 6)) →
          wordAt (setWordAt M e (i / 2 ^ (6 * e + 6))
            (wordAt M e (i / 2 ^ (6 * e + 6)) &&&
              (USIZE_MAX ^^^ 1 <<< (i / 2 ^ (6 * e) % 64)))) f j = wordAt M f j := by
        intro f j hc
        exact wordAt_setWordAt_ne M _ (fun hcc => hc ⟨hcc.1.symm, hcc.2.symm⟩)
      have hM1wlt : wordsLt (setWordAt M e (i / 2 ^ (6 * e + 6))
          (wordAt M e (i / 2 ^ (6 * e + 6)) &&&
            (USIZE_MAX ^^^ 1 <<< (i / 2 ^ (6 * e) % 64)))) :=
        fun d j => lt_of_le_of_lt (hM1le d j) (hwlt d j)
      have hup1 : ∀ d j, d + 1 < M.length →
          Nat.testBit (wordAt (setWordAt M e (i / 2 ^ (6 * e + 6))
            (wordAt M e (i / 2 ^ (6 * e + 6)) &&&
              (USIZE_MAX ^^^ 1 <<< (i / 2 ^ (6 * e) % 64)))) (d + 1) (j / 64)) (j % 64)
            = true →
          ¬(d + 1 = e + 1 ∧ j = i / 2 ^ (6 * d + 6)) →
          wordAt (setWordAt M e (i / 2 ^ (6 * e + 6))
            (wordAt M e (i / 2 ^ (6 * e + 6)) &&&
              (USIZE_MAX ^^^ 1 <<< (i / 2 ^ (6 * e) % 64)))) d j ≠ 0 := by
        intro d j hd hbit hnexc
        by_cases hde : d + 1 = e
        · have hchild : wordAt (setWordAt M e (i / 2 ^ (6 * e + 6))
              (wordAt M e (i / 2 ^ (6 * e + 6)) &&&
                (USIZE_MAX ^^^ 1 <<< (i / 2 ^ (6 * e) % 64)))) d j = wordAt M d j :=
            hM1ne d j (fun hcc => by omega)
          rw [hchild]
          by_cases hj64 : j / 64 = i / 2 ^ (6 * e + 6)
          · have hparent : wordAt (setWordAt M e (i / 2 ^ (6 * e + 6))
                (wordAt M e (i / 2 ^ (6 * e + 6)) &&&
                  (USIZE_MAX ^^^ 1 <<< (i / 2 ^ (6 * e) % 64)))) (d + 1) (j / 64) =
                wordAt M e (i / 2 ^ (6 * e + 6)) &&&
                  (USIZE_MAX ^^^ 1 <<< (i / 2 ^ (6 * e) % 64)) := by
              rw [hde, hj64]
              exact hM1O
            rw [hparent, testBit_and_mask _ _ _ hWolt (Nat.mod_lt _ (by norm_num))] at hbit
            by_cases hjK : j % 64 = i / 2 ^ (6 * e) % 64
            · rw [hjK] at hbit
              simp at hbit
            · rw [Bool.and_eq_true] at hbit
              refine hupE d j hd ?_ ?_
              · rw [hde, hj64]
                exact hbit.1
              · rintro ⟨h1, h2⟩
                apply hjK
                rw [h2, show 6 * d + 6 = 6 * e by omega]
          · have hparent : wordAt (setWordAt M e (i / 2 ^ (6 * e + 6))
                (wordAt M e (i / 2 ^ (6 * e + 6)) &&&
                  (USIZE_MAX ^^^ 1 <<< (i / 2 ^ (6 * e) % 64)))) (d + 1) (j / 64) =
                wordAt M (d + 1) (j / 64) :=
              hM1ne (d + 1) (j / 64) (fun hcc => hj64 hcc.2)
            rw [hparent] at hbit
            refine hupE d j hd hbit ?_
            rintro ⟨h1, h2⟩
            apply hj64
            rw [h2, show 6 * d + 6 = 6 * e by omega, hOdef]
        · by_cases hde2 : d = e
          · have hjO : j ≠ i / 2 ^ (6 * e + 6) := by
              intro hc
              exact hnexc ⟨by omega, by rw [hc, show 6 * d + 6 = 6 * e + 6 by omega]⟩
            have hchild : wordAt (setWordAt M e (i / 2 ^ (6 * e + 6))
                (wordAt M e (i / 2 ^ (6 * e + 6)) &&&
                  (USIZE_MAX ^^^ 1 <<< (i / 2 ^ (6 * e) % 64)))) d j = wordAt M d j :=
              hM1ne d j (fun hcc => hjO hcc.2)
            have hparent : wordAt (setWordAt M e (i / 2 ^ (6 * e + 6))
                (wordAt M e (i / 2 ^ (6 * e + 6)) &&&
                  (USIZE_MAX ^^^ 1 <<< (i / 2 ^ (6 * e) % 64)))) (d + 1) (j / 64) =
                wordAt M (d + 1) (j / 64) :=
              hM1ne (d + 1) (j / 64) (fun hcc => by omega)
            rw [hchild]
            rw [hparent] at hbit
            exact hupE d j hd hbit (fun hcc => by omega)
          · have hchild : wordAt (setWordAt M e (i / 2 ^ (6 * e + 6))
                (wordAt M e (i / 2 ^ (6 * e + 6)) &&&
                  (USIZE_MAX ^^^ 1 <<< (i / 2 ^ (6 * e) % 64)))) d j = wordAt M d j :=
              hM1ne d j (fun hcc => hde2 hcc.1)
            have hparent : wordAt (setWordAt M e (i / 2 ^ (6 * e + 6))
                (wordAt M e (i / 2 ^ (6 * e + 6)) &&&
                  (USIZE_MAX ^^^ 1 <<< (i / 2 ^ (6 * e) % 64)))) (d + 1) (j / 64) =
                wordAt M (d + 1) (j / 64) :=
              hM1ne (d + 1) (j / 64) (fun hcc => by omega)
            rw [hchild]
            rw [hparent] at hbit
            exact hupE d j hd hbit (fun hcc => by omega)
      rw [hstep]
      by_cases hz : wordAt M e (i / 2 ^ (6 * e + 6)) &&&
          (USIZE_MAX ^^^ 1 <<< (i / 2 ^ (6 * e) % 64)) = 0
      · rw [if_pos hz]
        obtain ⟨M2, r, heq, p1, p2, p3, p4, p5, p6⟩ := ih (e + 1)
          (setWordAt M e (i / 2 ^ (6 * e + 6))
            (wordAt M e (i / 2 ^ (6 * e + 6)) &&&
              (USIZE_MAX ^^^ 1 <<< (i / 2 ^ (6 * e) % 64)))) i q
          hM1wlt (by omega) hal hiq hq64
          (fun d j hd hbit hnexc => hup1 d j (by rw [hM1len] at hd; exact hd) hbit hnexc)
          (by rw [hM1len]; omega)
        refine ⟨M2, r, heq, p1, p2, by rw [p3, hM1len], fun f => by rw [p4 f, hM1row f],
          fun f j => le_trans (p5 f j) (hM1le f j), p6⟩
      · rw [if_neg hz]
        refine ⟨_, _, rfl, ?_, hM1wlt, hM1len, hM1row, hM1le, ?_⟩
        · intro d j hd0 hbit
          have hd : d + 1 < M.length := by rw [hM1len] at hd0; exact hd0
          by_cases hde2 : d = e ∧ j = i / 2 ^ (6 * d + 6)
          · rw [hde2.2, hde2.1]
            rw [hM1O]
            exact hz
          · exact hup1 d j hd hbit (fun hcc => hde2 ⟨by omega, hcc.2⟩)
        · intro di hdi
          rw [← Option.some.inj hdi]
          exact he
    · refine ⟨M, none, by rw [drainAscend_succ_eq, if_neg hlt], ?_, hwlt, rfl,
        fun f => rfl, fun f j => le_refl _, fun di hdi => Option.noConfusion hdi⟩
      exact fun d j hd hbit => hupE d j hd hbit (fun hc => by omega)

/-- Depth 0 with a nonzero word always yields within one iteration, keeping
the `clear`-tolerant invariant. -/
theorem go_term_base (fuel : Nat) (L : List Layer) (i : Nat)
    (hup : upOk L) (hwlt : wordsLt L) (hal : i % 64 = 0)
    (hlen : 0 < L.length) (hw : wordAt L 0 (i / 64) ≠ 0) :
    ∃ q s1, drainNextGo (fuel + 1) ⟨L, i, 0⟩ = some (some q, s1) ∧ UPost L s1 := by
  have htzlt : trailing_zeros (wordAt L 0 (i / 64)) < 64 :=
    trailing_zeros_lt _ hw (hwlt 0 (i / 64))
  have hin : i / 64 < (L.getD 0 []).length := (lt_length_of_wordAt_ne hw).2
  have hL1word : wordAt (setWordAt L 0 (i / 64) (wordAt L 0 (i / 64) &&&
      (USIZE_MAX ^^^ 1 <<< trailing_zeros (wordAt L 0 (i / 64))))) 0 (i / 64) =
      wordAt L 0 (i / 64) &&& (USIZE_MAX ^^^ 1 <<< trailing_zeros (wordAt L 0 (i / 64))) :=
    wordAt_setWordAt_self _ _ _ _ hlen hin
  have hL1ne : ∀ f j, ¬(f = 0 ∧ j = i / 64) →
      wordAt (setWordAt L 0 (i / 64) (wordAt L 0 (i / 64) &&&
        (USIZE_MAX ^^^ 1 <<< trailing_zeros (wordAt L 0 (i / 64))))) f j = wordAt L f j := by
    intro f j hc
    exact wordAt_setWordAt_ne L _ (fun hcc => hc ⟨hcc.1.symm, hcc.2.symm⟩)
  have hL1le : ∀ f j, wordAt (setWordAt L 0 (i / 64) (wordAt L 0 (i / 64) &&&
      (USIZE_MAX ^^^ 1 <<< trailing_zeros (wordAt L 0 (i / 64))))) f j ≤ wordAt L f j :=
    wordAt_setWordAt_le L 0 _ _ Nat.and_le_left
  have hL1len : (setWordAt L 0 (i / 64) (wordAt L 0 (i / 64) &&&
      (USIZE_MAX ^^^ 1 <<< trailing_zeros (wordAt L 0 (i / 64))))).length = L.length :=
    length_setWordAt _ _ _ _
  have hL1row : ∀ f, ((setWordAt L 0 (i / 64) (wordAt L 0 (i / 64) &&&
      (USIZE_MAX ^^^ 1 <<< trailing_zeros (wordAt L 0 (i / 64))))).getD f []).length =
      (L.getD f []).length :=
    fun f => row_length_setWordAt _ _ _ _ f
  have hL1wlt : wordsLt (setWordAt L 0 (i / 64) (wordAt L 0 (i / 64) &&&
      (USIZE_MAX ^^^ 1 <<< trailing_zeros (wordAt L 0 (i / 64))))) :=
    fun d j => lt_of_le_of_lt (hL1le d j) (hwlt d j)
  have hupE1 : ∀ d j, d + 1 < (setWordAt L 0 (i / 64) (wordAt L 0 (i / 64) &&&
      (USIZE_MAX ^^^ 1 <<< trailing_zeros (wordAt L 0 (i / 64))))).length →
      Nat.testBit (wordAt (setWordAt L 0 (i / 64) (wordAt L 0 (i / 64) &&&
        (USIZE_MAX ^^^ 1 <<< trailing_zeros (wordAt L 0 (i / 64))))) (d + 1) (j / 64))
        (j % 64) = true →
      ¬(d + 1 = 1 ∧ j = i / 2 ^ (6 * d + 6)) →
      wordAt (setWordAt L 0 (i / 64) (wordAt L 0 (i / 64) &&&
        (USIZE_MAX ^^^ 1 <<< trailing_zeros (wordAt L 0 (i / 64))))) d j ≠ 0 := by
    intro d j hd hbit hnexc
    have hd' : d + 1 < L.length := by rw [hL1len] at hd; exact hd
    rw [hL1ne (d + 1) (j / 64) (fun hcc => by omega)] at hbit
    have hMchild := hup d j hd' hbit
    by_cases hcj : d = 0 ∧ j = i / 64
    · exfalso
      refine hnexc ⟨by omega, ?_⟩
      rw [hcj.2, hcj.1]
      norm_num
    · rw [hL1ne d j (fun hcc => hcj hcc)]
      exact hMchild
  rw [drainNextGo_base_eq, if_pos hlen,
    if_neg (show ¬((wordAt L 0 (i / 64) == 0) = true) by simp [hw])]
  by_cases hz1 : wordAt L 0 (i / 64) &&&
      (USIZE_MAX ^^^ 1 <<< trailing_zeros (wordAt L 0 (i / 64))) = 0
  · rw [if_pos (by simp [hz1])]
    obtain ⟨M2, r, heq, hupM2, hwltM2, hlenM2, hrowM2, hleM2, hdep⟩ :=
      ascend_upOk (setWordAt L 0 (i / 64) (wordAt L 0 (i / 64) &&&
          (USIZE_MAX ^^^ 1 <<< trailing_zeros (wordAt L 0 (i / 64))))).length 1
        (setWordAt L 0 (i / 64) (wordAt L 0 (i / 64) &&&
          (USIZE_MAX ^^^ 1 <<< trailing_zeros (wordAt L 0 (i / 64))))) i
        (i + trailing_zeros (wordAt L 0 (i / 64)))
        hL1wlt (le_refl 1) hal (by omega) (by omega) hupE1 (by omega)
    rw [heq]
    cases r with
    | some di =>
      refine ⟨i + trailing_zeros (wordAt L 0 (i / 64)), ⟨M2, di.2, di.1⟩, rfl,
        hupM2, hwltM2, ?_, ?_, ?_, ?_⟩
      · intro h0
        have h0' : di.1 = 0 := h0
        have := hdep di rfl
        omega
      · show M2.length = L.length
        rw [hlenM2, hL1len]
      · intro f
        show (M2.getD f []).length = (L.getD f []).length
        rw [hrowM2 f, hL1row f]
      · intro f j
        show wordAt M2 f j ≤ wordAt L f j
        exact le_trans (hleM2 f j) (hL1le f j)
    | none =>
      refine ⟨i + trailing_zeros (wordAt L 0 (i / 64)), ⟨M2, i, M2.length⟩, rfl,
        hupM2, hwltM2, fun _ => hal, ?_, ?_, ?_⟩
      · show M2.length = L.length
        rw [hlenM2, hL1len]
      · intro f
        show (M2.getD f []).length = (L.getD f []).length
        rw [hrowM2 f, hL1row f]
      · intro f j
        show wordAt M2 f j ≤ wordAt L f j
        exact le_trans (hleM2 f j) (hL1le f j)
  · rw [if_neg (by simp [hz1])]
    have hupL1 : upOk (setWordAt L 0 (i / 64) (wordAt L 0 (i / 64) &&&
        (USIZE_MAX ^^^ 1 <<< trailing_zeros (wordAt L 0 (i / 64))))) := by
      intro d j hd hbit
      have hd' : d + 1 < L.length := by rw [hL1len] at hd; exact hd
      rw [hL1ne (d + 1) (j / 64) (fun hcc => by omega)] at hbit
      by_cases hcj : d = 0 ∧ j = i / 64
      · rw [hcj.2, hcj.1, hL1word]
        exact hz1
      · rw [hL1ne d j (fun hcc => hcj hcc)]
        exact hup d j hd' hbit
    exact ⟨i + trailing_zeros (wordAt L 0 (i / 64)),
      ⟨setWordAt L 0 (i / 64) (wordAt L 0 (i / 64) &&&
        (USIZE_MAX ^^^ 1 <<< trailing_zeros (wordAt L 0 (i / 64)))), i, 0⟩, rfl,
      hupL1, hL1wlt, fun _ => hal, hL1len, hL1row, hL1le⟩

/-- The descent chain terminates in a yield under upward soundness alone. -/
theorem go_term_descend : ∀ d (L : List Layer) (i fuel : Nat),
    upOk L → wordsLt L → (d = 0 → i % 64 = 0) → d < L.length →
    wordAt L d (i / 2 ^ (6 * d + 6)) ≠ 0 →
    ∃ q s1, drainNextGo (fuel + d + 1) ⟨L, i, d⟩ = some (some q, s1) ∧ UPost L s1 := by
  intro d
  induction d with
  | zero =>
    intro L i fuel hup hwlt hal hd hw
    have hw0 : wordAt L 0 (i / 64) ≠ 0 := by
      rw [show i / 64 = i / 2 ^ (6 * 0 + 6) by norm_num]
      exact hw
    rw [show fuel + 0 + 1 = fuel + 1 by ring]
    exact go_term_base fuel L i hup hwlt (hal rfl) hd hw0
  | succ d ih =>
    intro L i fuel hup hwlt _ hd hw
    rw [show fuel + (d + 1) + 1 = (fuel + d + 1) + 1 by ring]
    rw [drainNextGo_deep_eq, if_pos hd, BITS_shift_eq, tz_shift_eq]
    rw [if_neg (show ¬((wordAt L (d + 1) (i / 2 ^ (6 * (d + 1) + 6)) == 0) = true) by
      simp only [beq_iff_eq]
      exact hw)]
    set O := i / 2 ^ (6 * (d + 1) + 6) with hO
    set W := wordAt L (d + 1) O with hWdef
    have hW64 : W < 2 ^ 64 := hwlt (d + 1) O
    have htz := trailing_zeros_spec W hw hW64
    have ht64 : trailing_zeros W < 64 := trailing_zeros_lt W hw hW64
    set t := trailing_zeros W with htdef
    have hm0 : (0:Nat) < 2 ^ (6 * d + 6) := Nat.two_pow_pos _
    have hpow : (2:Nat) ^ (6 * (d + 1) + 6) = 2 ^ (6 * d + 6) * 64 := by
      rw [show 6 * (d + 1) + 6 = 6 * d + 6 + 6 by ring, pow_add]
      norm_num
    have hpow2 : (2:Nat) ^ (6 * (d + 1)) = 2 ^ (6 * d + 6) := by
      rw [show 6 * (d + 1) = 6 * d + 6 by ring]
    have hii : O * 2 ^ (6 * (d + 1) + 6) + t * 2 ^ (6 * (d + 1))
        = (64 * O + t) * 2 ^ (6 * d + 6) := by
      rw [hpow, hpow2]
      ring
    have hiidiv : (O * 2 ^ (6 * (d + 1) + 6) + t * 2 ^ (6 * (d + 1))) / 2 ^ (6 * d + 6)
        = 64 * O + t := by
      rw [hii]
      exact Nat.mul_div_cancel _ hm0
    have hchild : wordAt L d (64 * O + t) ≠ 0 := by
      refine hup d (64 * O + t) hd ?_
      rw [show (64 * O + t) / 64 = O by omega, show (64 * O + t) % 64 = t by omega, ← hWdef]
      exact htz.1
    have hmod : (O * 2 ^ (6 * (d + 1) + 6) + t * 2 ^ (6 * (d + 1))) % 64 = 0 := by
      obtain ⟨k, hk⟩ : (64:Nat) ∣ O * 2 ^ (6 * (d + 1) + 6) + t * 2 ^ (6 * (d + 1)) := by
        rw [hii]
        have h64 : (64:Nat) ∣ 2 ^ (6 * d + 6) := by
          rw [show (64:Nat) = 2 ^ 6 by norm_num]
          exact pow_dvd_pow 2 (by omega)
        exact h64.mul_left _
      rw [hk, Nat.mul_mod_right]
    refine ih L (O * 2 ^ (6 * (d + 1) + 6) + t * 2 ^ (6 * (d + 1))) fuel hup hwlt
      (fun _ => hmod) (by omega) ?_
    rw [hiidiv]
    exact hchild

/-- The whole outer loop terminates under upward soundness alone. -/
theorem go_term_ascend : ∀ k (L : List Layer) (i d fuel : Nat),
    upOk L → wordsLt L → (d = 0 → i % 64 = 0) → L.length - d ≤ k →
    ∃ r, drainNextGo (fuel + 2 * k + d + 1) ⟨L, i, d⟩ = some r ∧ UPost L r.2 := by
  intro k
  induction k with
  | zero =>
    intro L i d fuel hup hwlt hal hk
    have hd : L.length ≤ d := by omega
    refine ⟨(none, ⟨L, i, d⟩), ?_, hup, hwlt, fun h0 => hal h0, rfl, fun f => rfl,
      fun f j => le_refl _⟩
    rw [show fuel + 2 * 0 + d + 1 = (fuel + d) + 1 by ring]
    exact drainNextGo_exhaust_lit _ L i d hd
  | succ k ih =>
    intro L i d fuel hup hwlt hal hk
    by_cases hdlt : d < L.length
    · by_cases hw : wordAt L d (i / 2 ^ (6 * d + 6)) = 0
      · by_cases hd1 : d + 1 ≤ L.length
        · rw [show fuel + 2 * (k + 1) + d + 1 = (fuel + 2 * k + d + 2) + 1 by ring]
          rw [drainNextGo_up _ _ _ _ hdlt hw]
          rw [show fuel + 2 * k + d + 2 = fuel + 2 * k + (d + 1) + 1 by ring]
          exact ih L i (d + 1) fuel hup hwlt
            (fun h0 => absurd h0 (Nat.succ_ne_zero d)) (by omega)
        · omega
      · rw [show fuel + 2 * (k + 1) + d + 1 = (fuel + 2 * k + 2) + d + 1 by ring]
        obtain ⟨q, s1, heq, hpost⟩ :=
          go_term_descend d L i (fuel + 2 * k + 2) hup hwlt hal hdlt hw
        exact ⟨(some q, s1), heq, hpost⟩
    · refine ⟨(none, ⟨L, i, d⟩), ?_, hup, hwlt, fun h0 => hal h0, rfl, fun f => rfl,
        fun f j => le_refl _⟩
      rw [show fuel + 2 * (k + 1) + d + 1 = (fuel + 2 * (k + 1) + d) + 1 by ring]
      exact drainNextGo_exhaust_lit _ L i d (le_of_not_lt hdlt)

/-- A single `Drain::next` call terminates within the `2 * len + 2` budget on
any `clear`-tolerant state, leaving another such state. -/
theorem next_term (s : DrainState) (h : USess s) :
    ∃ r, drainNextGo (2 * s.layers.length + 2) s = some r ∧ UPost s.layers r.2 := by
  obtain ⟨L, i, d⟩ := s
  have hup : upOk L := h.up
  have hwlt : wordsLt L := h.wlt
  have hal : d = 0 → i % 64 = 0 := h.align
  show ∃ r, drainNextGo (2 * L.length + 2) ⟨L, i, d⟩ = some r ∧ UPost L r.2
  by_cases hd : d < L.length
  · obtain ⟨r, heq, hpost⟩ :=
      go_term_ascend (L.length - d) L i d (d + 1) hup hwlt hal (le_refl _)
    refine ⟨r, ?_, hpost⟩
    rw [show 2 * L.length + 2 = d + 1 + 2 * (L.length - d) + d + 1 by omega]
    exact heq
  · refine ⟨(none, ⟨L, i, d⟩), ?_, hup, hwlt, fun h0 => hal h0, rfl, fun f => rfl,
      fun f j => le_refl _⟩
    rw [show 2 * L.length + 2 = (2 * L.length + 1) + 1 by ring]
    exact drainNextGo_exhaust_lit _ L i d (le_of_not_lt hd)

theorem drainStep_USess (s : DrainState) (h : USess s) :
    USess (drainStep s).2 ∧ (drainStep s).2.layers.length = s.layers.length ∧
    (∀ f, ((drainStep s).2.layers.getD f []).length = (s.layers.getD f []).length) ∧
    (∀ f j, wordAt (drainStep s).2.layers f j ≤ wordAt s.layers f j) := by
  obtain ⟨r, heq, hpost⟩ := next_term s h
  obtain ⟨hu, hw, hali, hlen, hrow, hle⟩ := hpost
  have hds : drainStep s = r := by
    unfold drainStep
    rw [heq]
    rfl
  rw [hds]
  exact ⟨⟨hu, hw, hali⟩, hlen, hrow, hle⟩

theorem drainIter_USess (s : DrainState) (h : USess s) : ∀ k,
    USess (drainIter s k) ∧ (drainIter s k).layers.length = s.layers.length ∧
    (∀ f, ((drainIter s k).layers.getD f []).length = (s.layers.getD f []).length) ∧
    (∀ f j, wordAt (drainIter s k).layers f j ≤ wordAt s.layers f j) := by
  intro k
  induction k with
  | zero => exact ⟨h, rfl, fun f => rfl, fun f j => le_refl _⟩
  | succ k ih =>
    obtain ⟨hu, hlen, hrow, hle⟩ := ih
    obtain ⟨hu1, hlen1, hrow1, hle1⟩ := drainStep_USess _ hu
    refine ⟨hu1, ?_, ?_, ?_⟩
    · rw [show drainIter s (k + 1) = (drainStep (drainIter s k)).2 from rfl, hlen1, hlen]
    · intro f
      rw [show drainIter s (k + 1) = (drainStep (drainIter s k)).2 from rfl,
        hrow1 f, hrow f]
    · intro f j
      rw [show drainIter s (k + 1) = (drainStep (drainIter s k)).2 from rfl]
      exact le_trans (hle1 f j) (hle f j)

theorem USess_init (b : BitSet) (h : RInv b) : USess b.drainInit :=
  ⟨h.up, h.wf.wlt, fun _ => rfl⟩

theorem RInv_drainSteps (b : BitSet) (h : RInv b) (k : Nat) : RInv (b.drainSteps k) := by
  obtain ⟨hu, hlen, hrow, hle⟩ := drainIter_USess b.drainInit (USess_init b h) k
  have hlen' : (drainIter b.drainInit k).layers.length = b.layers.length := hlen
  refine ⟨⟨hu.wlt, ?_, ?_, ?_, ?_⟩, hu.up⟩
  · intro j hj
    show wordAt (drainIter b.drainInit k).layers
      ((drainIter b.drainInit k).layers.length - 1) j = 0
    rw [hlen']
    have h1 : wordAt (drainIter b.drainInit k).layers (b.layers.length - 1) j
        ≤ wordAt b.layers (b.layers.length - 1) j := hle _ j
    have h2 := h.wf.spare j hj
    omega
  · intro d hd p hp
    have hd' : d < (drainIter b.drainInit k).layers.length := hd
    have hp' : p < b.cap := hp
    show p >>> (6 * d + 6) < ((drainIter b.drainInit k).layers.getD d []).length
    have hrow' : ((drainIter b.drainInit k).layers.getD d []).length
        = (b.layers.getD d []).length := hrow d
    rw [hrow']
    exact h.wf.lens d (by omega) p hp'
  · intro d hd
    have hd' : d < (drainIter b.drainInit k).layers.length := hd
    show 0 < ((drainIter b.drainInit k).layers.getD d []).length
    have hrow' : ((drainIter b.drainInit k).layers.getD d []).length
        = (b.layers.getD d []).length := hrow d
    rw [hrow']
    exact h.wf.lpos d (by omega)
  · show b.cap ≤ 2 ^ (6 * (drainIter b.drainInit k).layers.length)
    rw [hlen']
    exact h.wf.capok

theorem RInv_new : RInv BitSet.new := by
  refine ⟨EInv_new.wf, ?_⟩
  intro d j hd
  have hd0 : d + 1 < ([] : List Layer).length := hd
  simp at hd0

/-- Every reachable state, `clear` included, keeps well-formedness and the
upward half of the summary invariant. -/
theorem RInv_Reach (b : BitSet) (h : Reach b) : RInv b := by
  induction h with
  | new => exact RInv_new
  | reserve b n _ hn ih => exact ⟨WF_reserve b n hn ih.wf, upOk_reserve b n ih.wf.wlt ih.up⟩
  | set b p _ hp ih => exact ⟨WF_set b p ih.wf hp, upOk_set ih.up ih.wf.lens hp⟩
  | clear b p _ hp ih =>
    exact ⟨WF_clear b p ih.wf, upOk_clear ih.up ih.wf.wlt ih.wf.lens hp⟩
  | drain b k _ ih => exact RInv_drainSteps b ih k

/-- C10: in every reachable state (`clear` included), a set summary bit has a
nonzero word below it: the clear defect only produces stale-zero summaries,
never stale-set ones. -/
theorem claim_C10 (b : BitSet) (hb : Reach b) : ∀ k w bbit, 0 < k →
    k < b.layers.length → bbit < 64 →
    (wordAt b.layers k w).testBit bbit = true →
    wordAt b.layers (k - 1) (64 * w + bbit) ≠ 0 := by
  intro k w bbit hk hklen hbb hbit
  have hupb := (RInv_Reach b hb).up
  refine hupb (k - 1) (64 * w + bbit) (by omega) ?_
  rw [show k - 1 + 1 = k by omega, show (64 * w + bbit) / 64 = w by omega,
    show (64 * w + bbit) % 64 = bbit by omega]
  exact hbit

/-- Witness for C10: after reserve 100, set 5, clear 69, summary bit 0 of
layer 1 is set and layer 0's word 0 is indeed nonzero. -/
theorem claim_C10_witness :
    (Reach (((BitSet.new.reserve 100).set 5).clear 69) ∧ 0 < 1 ∧
      1 < (((BitSet.new.reserve 100).set 5).clear 69).layers.length ∧ (0:Nat) < 64 ∧
      (wordAt (((BitSet.new.reserve 100).set 5).clear 69).layers 1 0).testBit 0 = true) ∧
    wordAt (((BitSet.new.reserve 100).set 5).clear 69).layers 0 (64 * 0 + 0) ≠ 0 :=
  ⟨⟨Reach.clear _ _ (Reach.set _ _ (Reach.reserve _ _ Reach.new (by norm_num))
      (by decide)) (by decide), by decide, by decide, by decide, by decide⟩,
    claim_C10 _
      (Reach.clear _ _ (Reach.set _ _ (Reach.reserve _ _ Reach.new (by norm_num))
        (by decide)) (by decide))
      1 0 0 (by decide) (by decide) (by decide) (by decide)⟩
